import Mathlib

/-!
# fincore: page-residency query engine

A shallow embedding of the user-space reporter (`fincore-u.c`) and of the
kernel-side scan driver (`kmod/fincore-kmod.c`), followed by theorems about
them.

Conventions of the embedding:

* a status vector is a `List Nat` (one entry per byte of the object that the
  pointer `vec` designates); reading an index outside that object stops the
  execution with a `fault` carrying the offending index;
* C unsigned 64-bit arithmetic (`size_t`, `pgoff_t`, `unsigned long`, `u64`)
  is arithmetic on `Nat` reduced modulo `2 ^ 64` where it can wrap;
* loops that the source does not bound take a fuel argument and give `none`
  (or `out_of_fuel`) when the fuel is exhausted.
-/

namespace Fincore

/-! ## fincore.h -/

def FPG_uptodate : Nat := 0
def FPG_active : Nat := 1
def FPG_referenced : Nat := 2
def FPG_dirty : Nat := 3
def FPG_writeback : Nat := 4
def FPG_unevictable : Nat := 5
def FPG_reclaim : Nat := 6
def FPG_private : Nat := 7
def FINCORE_MAX_ARGUMENT_SIZE : Nat := 120

/-! ## fincore-u.c : print_results -/

/-- The `header` table of `fincore-u.c`, without its terminating NULL. -/
def header : List String :=
  [ "[State]*  - R:referenced A:active U:uptodate D:dirty W:writeback B:buffers ",
    "\t     U:unevicatable R:reclaim                                       ",
    "                                                                           ",
    "               Index                  Run            Status                " ]

/-- The `page_flags` table: `(mask, name)` pairs, in declaration order. -/
def page_flags : List (Nat × String) :=
  [ (1 <<< FPG_uptodate, "U:uptodate"),
    (1 <<< FPG_active, "A:active"),
    (1 <<< FPG_referenced, "R:referenced"),
    (1 <<< FPG_dirty, "D:dirty"),
    (1 <<< FPG_writeback, "W:writeback"),
    (1 <<< FPG_unevictable, "U:unevictable"),
    (1 <<< FPG_reclaim, "R:reclaim"),
    (1 <<< FPG_private, "B:buffers") ]

/-- The `for` loop of `print_results` that fills `str_flags`:
`str_flags[i] = flags & page_flags[i].mask ? page_flags[i].name[0] : '_'`. -/
def str_flags (flags : Nat) : String :=
  String.mk (page_flags.map fun e => if flags &&& e.1 ≠ 0 then e.2.front else '_')

/-- One line written by `fprintf(stdout, "%20zu %20zu %18s\n", start, run, str_flags)`,
together with the local `flags` the string was rendered from. -/
structure Record where
  start : Nat
  run : Nat
  flags : Nat
  status : String
  deriving DecidableEq, Repr

/-- How an execution of `print_results` ends. `fault p` : the code evaluated
`vec[p]` with `p` outside the vector. -/
inductive Exit where
  | returned : Exit
  | fault : Nat → Exit
  | out_of_fuel : Exit
  deriving DecidableEq, Repr

/-- Records written to stdout, in order, and the way the execution ended. -/
structure Report where
  records : List Record
  exit : Exit
  deriving DecidableEq, Repr

/-- Result of the inner loop that skips a hole. -/
inductive HoleExit where
  | found : Nat → List Nat → HoleExit
  | returned : HoleExit
  | fault : Nat → HoleExit
  deriving DecidableEq, Repr

/-- The loop `while (!vec[pindex]) { pindex++; if (pindex == length - 1) return; }`.
The list argument is the part of the vector from `pindex` on, so its head is
`vec[pindex]` and the empty list means that `pindex` is past the vector. -/
def hole_loop (length : Nat) : List Nat → Nat → HoleExit
  | [], pindex => .fault pindex
  | b :: rest, pindex =>
    if b = 0 then
      if pindex + 1 = length - 1 then .returned
      else hole_loop length rest (pindex + 1)
    else .found pindex (b :: rest)

/-- Result of the inner loop that measures a run. -/
inductive RunExit where
  | done : Nat → Nat → List Nat → RunExit
  | fault : Nat → RunExit
  deriving DecidableEq, Repr

/-- The loop
`while (vec[pindex] && vec[pindex] == flags) { run++; pindex++; if (i == length - 1) break; }`.
Note that the bound test reads `i`, not `pindex`. -/
def run_loop (length i flags : Nat) : List Nat → Nat → Nat → RunExit
  | [], pindex, _ => .fault pindex
  | b :: rest, pindex, run =>
    if b ≠ 0 ∧ b = flags then
      if i = length - 1 then .done (pindex + 1) (run + 1) rest
      else run_loop length i flags rest (pindex + 1) (run + 1)
    else .done pindex run (b :: rest)

/-- The `do { ... } while (pindex < length)` loop of `print_results`. `i` is the
value of the `int i` at loop entry, `rest` the vector from `pindex` on. -/
def do_loop (length : Nat) : Nat → Nat → List Nat → Nat → Report
  | 0, _, _, _ => ⟨[], .out_of_fuel⟩
  | fuel + 1, i, rest, pindex =>
    match hole_loop length rest pindex with
    | .returned => ⟨[], .returned⟩
    | .fault p => ⟨[], .fault p⟩
    | .found start rest1 =>
      match rest1.head? with
      | none => ⟨[], .fault start⟩
      | some flags =>
        match run_loop length i flags rest1 start 0 with
        | .fault p => ⟨[], .fault p⟩
        | .done pindex1 run rest2 =>
          let r : Record := ⟨start, run, flags, str_flags flags⟩
          if pindex1 < length then
            let tl := do_loop length fuel page_flags.length rest2 pindex1
            ⟨r :: tl.records, tl.exit⟩
          else ⟨[r], .returned⟩

/-- The function `print_results(vec, length)`. Nothing is printed when `length` is 0;
otherwise the header lines are printed (which leaves `i = 4`) and the scan
starts at `pindex = 0`. Every round of the outer loop consumes at least one
entry, so `vec.length + 1` rounds are enough. -/
def print_results (vec : List Nat) (length : Nat) : Report :=
  if length = 0 then ⟨[], .returned⟩
  else do_loop length (vec.length + 1) header.length vec 0

/-! ## fincore-u.c : fincore_helper -/

def EINTR : Nat := 4
def EBADF : Nat := 9
def ENOMEM : Nat := 12
def EACCES : Nat := 13
def EFAULT : Nat := 14
def EINVAL : Nat := 22
def ERANGE : Nat := 34
def EOVERFLOW : Nat := 75

/-- Value of a signed 64-bit object whose bit pattern is `n % 2 ^ 64`
(conversion of an unsigned 64-bit value to `ssize_t` / `loff_t`). -/
def to_s64 (n : Nat) : Int :=
  if n % 2 ^ 64 < 2 ^ 63 then ((n % 2 ^ 64 : Nat) : Int) else ((n % 2 ^ 64 : Nat) : Int) - 2 ^ 64

/-- Conversion of a signed value to an unsigned 64-bit one. -/
def to_u64 (z : Int) : Nat := (z % 2 ^ 64).toNat

/-- Conversion to `int` (32 bits, two's complement), as in the casts `(int) x`. -/
def to_int (z : Int) : Int :=
  if z % 2 ^ 32 < 2 ^ 31 then z % 2 ^ 32 else z % 2 ^ 32 - 2 ^ 32

/-- Digits of `n` in `base`, least significant first; `fuel` bounds their number. -/
def digits_rev (base : Nat) : Nat → Nat → List Nat
  | 0, _ => []
  | fuel + 1, n => if n < base then [n] else (n % base) :: digits_rev base fuel (n / base)

/-- Rendering of an unsigned 64-bit value by `%zu` (base 10) or in hexadecimal. -/
def render_u64 (base n : Nat) : List Char :=
  ((digits_rev base 64 (n % 2 ^ 64)).reverse).map Nat.digitChar

/-- Rendering of an `int` by `%d`. -/
def render_int (z : Int) : List Char :=
  if z < 0 then '-' :: render_u64 10 (-z).toNat else render_u64 10 z.toNat

/-- Rendering of a pointer by `%p` (glibc: `(nil)` for NULL, else `0x` and
lower-case hexadecimal digits). -/
def render_ptr (p : Nat) : List Char :=
  if p = 0 then "(nil)".toList else '0' :: 'x' :: render_u64 16 p

/-- What the C library and the system do for one call of `fincore_helper`. -/
structure HelperEnv where
  page_size : Nat
  fcntl_errno : Option Nat
  open_errno : Option Nat
  mmap : Nat → Option Nat
  mmap_errno : Nat
  write_errno : Option Nat

/-- Observable effect of `fincore_helper`. `args` is the byte string handed to
`write` (without its terminating NUL, which is written too), `nr_pages` the
number of one-byte entries computed for the query. -/
structure HelperResult where
  ret : Nat
  nr_pages : Option Nat
  args : Option (List Char)
  out_vec : Option Nat

/-- The statement `nr_pages = (length + page_size - 1) / page_size`, over `size_t`. -/
def helper_nr_pages (page_size length : Nat) : Nat :=
  ((length + page_size - 1) % 2 ^ 64) / page_size

/-- The function `fincore_helper(fd, start, length, out_vec)`; `E` tells which of
its system calls fail. -/
def fincore_helper (E : HelperEnv) (fd : Int) (start : Int) (length : Nat) : HelperResult :=
  match E.fcntl_errno with
  | some e => ⟨e, none, none, none⟩
  | none =>
    match E.open_errno with
    | some e => ⟨e, none, none, none⟩
    | none =>
      if length = 0 then ⟨EINVAL, none, none, none⟩
      else
        let nr_pages := helper_nr_pages E.page_size length
        match E.mmap ((nr_pages * E.page_size) % 2 ^ 64) with
        | none => ⟨E.mmap_errno, some nr_pages, none, none⟩
        | some address =>
          let line := render_int fd ++ ' ' :: render_u64 10 (to_u64 start) ++
            ' ' :: render_u64 10 length ++ ' ' :: render_ptr address ++ ['\n']
          let args := line.take (FINCORE_MAX_ARGUMENT_SIZE - 1)
          match E.write_errno with
          | some e => ⟨e, some nr_pages, some args, none⟩
          | none => ⟨0, some nr_pages, some args, some address⟩

/-! ## kmod/fincore-kmod.c -/

/-- The kernel enum spells this flag `FPG_unevicatable`. -/
def FPG_unevicatable : Nat := 5

/-- Constants of the kernel the module is built for. `PAGE_SIZE` is
`1UL << PAGE_SHIFT`; `PAGEVEC_SIZE` is the capacity of a `struct pagevec`. -/
structure Config where
  PAGE_SHIFT : Nat
  PAGEVEC_SIZE : Nat
  deriving DecidableEq, Repr

def Config.PAGE_SIZE (K : Config) : Nat := 1 <<< K.PAGE_SHIFT

/-- The usual values: 4096-byte pages, 14 pages per pagevec. -/
def linux : Config := ⟨12, 14⟩

/-- A page of the page cache: its index in the mapping and the page
predicates that `fincore_page_flags` tests. -/
structure Page where
  index : Nat
  uptodate : Bool
  active : Bool
  referenced : Bool
  dirty : Bool
  writeback : Bool
  unevictable : Bool
  reclaim : Bool
  has_buffers : Bool
  deriving DecidableEq, Repr

/-- The function `fincore_page_flags(page)`. -/
def fincore_page_flags (page : Page) : Nat :=
  let flags := 0
  if !page.uptodate then flags
  else
    let flags := flags ||| (1 <<< FPG_uptodate)
    let flags := if page.active then flags ||| (1 <<< FPG_active) else flags
    let flags := if page.referenced then flags ||| (1 <<< FPG_referenced) else flags
    let flags := if page.dirty then flags ||| (1 <<< FPG_dirty) else flags
    let flags := if page.writeback then flags ||| (1 <<< FPG_writeback) else flags
    let flags := if page.unevictable then flags ||| (1 <<< FPG_unevicatable) else flags
    let flags := if page.reclaim then flags ||| (1 <<< FPG_reclaim) else flags
    let flags := if page.has_buffers then flags ||| (1 <<< FPG_private) else flags
    flags

/-- Kernel primitive `radix_tree_gang_lookup(&mapping->page_tree, results,
first_index, max_items)`: the first `max_items` resident pages whose index is at
least `first_index`, in ascending index order. The page tree is given as the
list of its pages in ascending index order. -/
def radix_tree_gang_lookup (page_tree : List Page) (first_index max_items : Nat) : List Page :=
  (page_tree.filter fun p => first_index ≤ p.index).take max_items

/-- Value of `int index = page->index - pgstart` once converted back to
`unsigned long` for the comparison with `nr_pages - 1`: the 64-bit difference
truncated to 32 bits and sign-extended. -/
def page_offset (page_index pgstart : Nat) : Nat :=
  let d := (page_index + 2 ^ 64 - pgstart % 2 ^ 64) % 2 ^ 64 % 2 ^ 32
  if d < 2 ^ 31 then d else d + (2 ^ 64 - 2 ^ 32)

/-- The `for (i = 0; i < pvec.nr; i++)` loop of `do_fincore` over the pages the
lookup returned; gives the vector and `length` at loop exit. Only the contents
of `vec` are tracked: a store outside it leaves it unchanged. -/
def for_pages (pgstart nr_pages : Nat) : List Page → List Nat → Nat → List Nat × Nat
  | [], vec, length => (vec, length)
  | page :: pages, vec, length =>
    let index := page_offset page.index pgstart
    if index > (nr_pages + 2 ^ 64 - 1) % 2 ^ 64 then (vec, length)
    else
      let vec1 := vec.set index (fincore_page_flags page)
      let length1 := (index + 1) % 2 ^ 64
      if length1 = nr_pages then (vec1, length1)
      else for_pages pgstart nr_pages pages vec1 length1

/-- The `do { ... } while (length <= nr_pages)` loop of `do_fincore`; `none`
when the fuel runs out before the loop exits. -/
def do_fincore_loop (K : Config) (page_tree : List Page) (pgstart nr_pages : Nat) :
    Nat → List Nat → Nat → Option (List Nat × Nat)
  | 0, _, _ => none
  | fuel + 1, vec, length =>
    let pvec := radix_tree_gang_lookup page_tree ((pgstart + length) % 2 ^ 64) K.PAGEVEC_SIZE
    if pvec.length = 0 then some (vec, length)
    else
      let st := for_pages pgstart nr_pages pvec vec length
      if st.2 ≤ nr_pages then do_fincore_loop K page_tree pgstart nr_pages fuel st.1 st.2
      else some st

/-- The function `do_fincore(mapping, pgstart, nr_pages, vec)`: the vector after the walk and
the returned `length`, or `none` when the walk does not end within `fuel`
rounds of the outer loop. -/
def do_fincore (K : Config) (page_tree : List Page) (pgstart nr_pages : Nat) (vec : List Nat)
    (fuel : Nat) : Option (List Nat × Nat) :=
  do_fincore_loop K page_tree pgstart nr_pages fuel vec 0

/-- The request kept in `file->private_data`. -/
structure fincore_info where
  fd : Nat
  start : Int
  length : Nat
  ptr : Nat
  deriving DecidableEq, Repr

/-- String decoders of the kernel library, as `fincore_parse_options` uses
them. `simple_strtol tok` is `simple_strtol(tok, &endp, 0)`: the value and
`endp - tok`. `kstrtoll tok base` and `kstrtoull tok base` give the errno on
failure. -/
structure Lib where
  simple_strtol : List Char → Int × Nat
  kstrtoll : List Char → Nat → Except Nat Int
  kstrtoull : List Char → Nat → Except Nat Nat

/-- Value of a digit character, as `_parse_integer` reads it. -/
def digit_val (c : Char) : Option Nat :=
  if 48 ≤ c.toNat ∧ c.toNat ≤ 57 then some (c.toNat - 48)
  else if 97 ≤ c.toNat ∧ c.toNat ≤ 102 then some (c.toNat - 97 + 10)
  else if 65 ≤ c.toNat ∧ c.toNat ≤ 70 then some (c.toNat - 65 + 10)
  else none

/-- Kernel `_parse_integer_fixup_radix(s, &base)`. -/
def parse_integer_fixup_radix (s : List Char) (base : Nat) : List Char × Nat :=
  let base1 :=
    if base = 0 then
      match s with
      | '0' :: c :: d :: _ => if (c = 'x' ∨ c = 'X') ∧ (digit_val d).isSome then 16 else 8
      | '0' :: _ => 8
      | _ => 10
    else base
  match s with
  | '0' :: c :: rest => if base1 = 16 ∧ (c = 'x' ∨ c = 'X') then (rest, base1) else (s, base1)
  | _ => (s, base1)

/-- Kernel `_parse_integer(s, base, &res)`: the exact value of the leading
digits and their number; the kernel flags an overflow exactly when that value
does not fit 64 bits. -/
def parse_integer (base : Nat) : List Char → Nat → Nat → Nat × Nat
  | [], res, rv => (res, rv)
  | c :: s, res, rv =>
    match digit_val c with
    | none => (res, rv)
    | some val =>
      if val ≥ base then (res, rv) else parse_integer base s (res * base + val) (rv + 1)

/-- Kernel `_kstrtoull`. -/
def kstrtoull_digits (s : List Char) (base : Nat) : Except Nat Nat :=
  let f := parse_integer_fixup_radix s base
  let r := parse_integer f.2 f.1 0 0
  if r.1 ≥ 2 ^ 64 then .error ERANGE
  else if r.2 = 0 then .error EINVAL
  else
    match f.1.drop r.2 with
    | [] => .ok r.1
    | ['\n'] => .ok r.1
    | _ => .error EINVAL

/-- Kernel `kstrtoull`. -/
def kstrtoull (s : List Char) (base : Nat) : Except Nat Nat :=
  match s with
  | '+' :: s1 => kstrtoull_digits s1 base
  | _ => kstrtoull_digits s base

/-- Kernel `kstrtoll`. -/
def kstrtoll (s : List Char) (base : Nat) : Except Nat Int :=
  match s with
  | '-' :: s1 =>
    match kstrtoull_digits s1 base with
    | .error e => .error e
    | .ok tmp => if to_s64 (2 ^ 64 - tmp) ≥ 0 then .error ERANGE else .ok (to_s64 (2 ^ 64 - tmp))
  | _ =>
    match kstrtoull s base with
    | .error e => .error e
    | .ok tmp => if to_s64 tmp < 0 then .error ERANGE else .ok (to_s64 tmp)

/-- Kernel `simple_strtol(cp, &endp, 0)`: value and `endp - cp`. -/
def simple_strtol (cp : List Char) : Int × Nat :=
  match cp with
  | '-' :: cp1 =>
    let f := parse_integer_fixup_radix cp1 0
    let r := parse_integer f.2 f.1 0 0
    (to_s64 (2 ^ 64 - r.1 % 2 ^ 64), 1 + (cp1.length - f.1.length) + r.2)
  | _ =>
    let f := parse_integer_fixup_radix cp 0
    let r := parse_integer f.2 f.1 0 0
    (to_s64 r.1, (cp.length - f.1.length) + r.2)

/-- The decoders of `lib/kstrtox.c` and `lib/vsprintf.c`. -/
def kstrtox : Lib := ⟨simple_strtol, kstrtoll, kstrtoull⟩

/-- The successive tokens that `strsep(&end, " ")` cuts out of the buffer: the
pieces between single spaces, empty pieces included. -/
def split_tokens : List Char → List (List Char)
  | [] => [[]]
  | c :: cs =>
    if c = ' ' then [] :: split_tokens cs
    else
      match split_tokens cs with
      | [] => [[c]]
      | t :: ts => (c :: t) :: ts

/-- The `while (tok)` loop of `fincore_parse_options` and the test that follows
it. `argc` counts the tokens seen so far, `length` is the local `u64 length`
(set by the third token, read by the fourth). The result is the function's
return value and the request as the function leaves it. -/
def parse_tokens (L : Lib) (access_ok : Nat → Nat → Bool) :
    List (List Char) → Nat → Nat → fincore_info → Bool × fincore_info
  | [], argc, _, info => (decide (¬ argc < 3), info)
  | tok :: toks, argc, length, info =>
    match argc with
    | 0 =>
      let r := L.simple_strtol tok
      if r.2 = 0 ∨ r.1 < -(2 : Int) ^ 31 ∨ r.1 > 2 ^ 31 - 1 then (false, info)
      else parse_tokens L access_ok toks 1 length { info with fd := (to_int r.1 % 2 ^ 32).toNat }
    | 1 =>
      match L.kstrtoll tok 0 with
      | .error _ => (false, info)
      | .ok start => parse_tokens L access_ok toks 2 length { info with start := to_int start }
    | 2 =>
      match L.kstrtoll tok 0 with
      | .error _ => (false, info)
      | .ok len =>
        parse_tokens L access_ok toks 3 (to_u64 len) { info with length := to_u64 len }
    | 3 =>
      match L.kstrtoull tok 16 with
      | .error _ => (false, info)
      | .ok ptr =>
        if !access_ok ptr length then (false, info)
        else parse_tokens L access_ok toks 4 length { info with ptr := ptr }
    | _ => (false, info)

/-- The function `fincore_parse_options(info)` on the NUL-terminated string in `info->buffer`. -/
def fincore_parse_options (L : Lib) (access_ok : Nat → Nat → Bool) (info : fincore_info)
    (buffer : List Char) : Bool × fincore_info :=
  parse_tokens L access_ok (split_tokens buffer) 0 0 info

/-- An open file as the handler sees it: `f_mode & FMODE_UNSIGNED_OFFSET` and
the page tree of `f_mapping`, pages in ascending index order. -/
structure File where
  unsigned_offsets : Bool
  f_mapping : List Page
  deriving DecidableEq, Repr

/-- What the rest of the kernel does for one call of the write handler.
`alloc_page`, `copy_from_user`, `copy_to_user` tell whether the operation
succeeds; `mutex_lock_interruptible` is the value returned by the lock. -/
structure Env where
  alloc_page : Bool
  mutex_lock_interruptible : Int
  copy_from_user : Bool
  access_ok : Nat → Nat → Bool
  fdget : Nat → Option File
  copy_to_user : Nat → List Nat → Bool

/-- State at the exit of the scan loop, with the provider calls
`(pgstart, max_pages)` and the transfers `(ptr, bytes, succeeded)` made. -/
structure ScanResult where
  ret : Int
  nr_pages : Nat
  pgstart : Nat
  ptr : Nat
  calls : List (Nat × Nat)
  copies : List (Nat × List Nat × Bool)
  deriving DecidableEq, Repr

/-- The loop `while (nr_pages) { ... }` of `fincore_file_write`, for a provider
`provider pgstart max_pages vec` standing for `do_fincore(mapping, ...)`; `none`
when the provider does not return or the fuel runs out. -/
def scan_loop (K : Config) (provider : Nat → Nat → List Nat → Option (List Nat × Nat))
    (copy_to_user : Nat → List Nat → Bool) : Nat → Int → Nat → Nat → Nat → Option ScanResult
  | 0, _, _, _, _ => none
  | fuel + 1, ret, nr_pages, pgstart, ptr =>
    if nr_pages = 0 then some ⟨ret, nr_pages, pgstart, ptr, [], []⟩
    else
      let page_status_vec := List.replicate K.PAGE_SIZE 0
      let max_pages := min nr_pages K.PAGE_SIZE
      match provider pgstart max_pages page_status_vec with
      | none => none
      | some (vec, found) =>
        let ret1 := to_s64 found
        if ret1 ≤ 0 then some ⟨ret1, nr_pages, pgstart, ptr, [(pgstart, max_pages)], []⟩
        else
          let bytes := vec.take ret1.toNat
          if !copy_to_user ptr bytes then
            some ⟨-(EFAULT : Int), nr_pages, pgstart, ptr, [(pgstart, max_pages)],
              [(ptr, bytes, false)]⟩
          else
            match scan_loop K provider copy_to_user fuel 0
                ((nr_pages + 2 ^ 64 - ret1.toNat) % 2 ^ 64)
                ((pgstart + ret1.toNat) % 2 ^ 64) ((ptr + ret1.toNat) % 2 ^ 64) with
            | none => none
            | some r =>
              some { r with calls := (pgstart, max_pages) :: r.calls,
                            copies := (ptr, bytes, true) :: r.copies }

/-- The macro `DIV_ROUND_UP(n, d)` on `unsigned long`: `(n + d - 1) / d`. -/
def DIV_ROUND_UP (n d : Nat) : Nat := ((n + d - 1) % 2 ^ 64) / d

/-- Outcome of the write handler: its return value, the provider calls and
transfers it made, and the request left in `file->private_data`. -/
structure WriteResult where
  ret : Int
  calls : List (Nat × Nat)
  copies : List (Nat × List Nat × Bool)
  info : fincore_info
  deriving DecidableEq, Repr

/-- The part of `fincore_file_write` that follows the sanity checks: the
computation of `pgstart` and `nr_pages`, the scan loop over `do_fincore`, and
the final `ret = len`. -/
def fincore_file_scan (K : Config) (E : Env) (f : File) (info : fincore_info) (len : Nat)
    (fuel : Nat) : Option WriteResult :=
  let pgstart := to_u64 (info.start >>> K.PAGE_SHIFT)
  let nr_pages := DIV_ROUND_UP info.length K.PAGE_SIZE
  match scan_loop K (fun s n vec => do_fincore K f.f_mapping s n vec fuel) E.copy_to_user
      fuel 0 nr_pages pgstart info.ptr with
  | none => none
  | some r => some ⟨to_s64 len, r.calls, r.copies, { info with ptr := r.ptr }⟩

/-- The handler `fincore_file_write(file, buf, len, ppos)` with `len = buf.length`; `info` is
the request found in `file->private_data`. `none` when the handler does not
return within `fuel` rounds of its loops. -/
def fincore_file_write (K : Config) (L : Lib) (E : Env) (info : fincore_info)
    (buf : List Char) (ppos : Int) (fuel : Nat) : Option WriteResult :=
  let len := buf.length
  if !E.alloc_page then some ⟨-(ENOMEM : Int), [], [], info⟩
  else if E.mutex_lock_interruptible ≠ 0 then some ⟨E.mutex_lock_interruptible, [], [], info⟩
  else if ppos ≠ 0 then some ⟨-(EFAULT : Int), [], [], info⟩
  else
    let size := min (FINCORE_MAX_ARGUMENT_SIZE - 1) len
    if !E.copy_from_user then some ⟨0, [], [], info⟩
    else
      let buffer := (buf.take size).takeWhile fun c => c ≠ Char.ofNat 0
      match fincore_parse_options L E.access_ok info buffer with
      | (false, info1) => some ⟨-(EINVAL : Int), [], [], info1⟩
      | (true, info1) =>
        match E.fdget info1.fd with
        | none => some ⟨-(EBADF : Int), [], [], info1⟩
        | some f =>
          if info1.start < 0 then
            if !f.unsigned_offsets then some ⟨-(EINVAL : Int), [], [], info1⟩
            else if info1.length ≥ to_u64 (-info1.start) then
              some ⟨-(EOVERFLOW : Int), [], [], info1⟩
            else fincore_file_scan K E f info1 len fuel
          else if to_s64 (to_u64 info1.start + info1.length) < 0 ∧ !f.unsigned_offsets then
            some ⟨-(EINVAL : Int), [], [], info1⟩
          else fincore_file_scan K E f info1 len fuel

/-! ## Sample data for the concrete evaluations -/

/-- An up-to-date, active page at the given index (status byte 3). -/
def sample_page (index : Nat) : Page :=
  ⟨index, true, true, false, false, false, false, false, false⟩

/-- A process in which descriptor 3 is open on a file without unsigned
offsets whose page cache holds `pages`; every user range passes `access_ok`,
and `copy_to_user` succeeds iff `writable`. -/
def sample_env (pages : List Page) (writable : Bool) : Env :=
  { alloc_page := true
    mutex_lock_interruptible := 0
    copy_from_user := true
    access_ok := fun _ _ => true
    fdget := fun fd => if fd = 3 then some ⟨false, pages⟩ else none
    copy_to_user := fun _ _ => writable }

/-- The request a freshly opened channel holds (`fincore_file_open`); the
pointer is the hole address `PAGE_OFFSET + PAGE_SIZE` of x86-64. -/
def fresh_info : fincore_info := ⟨0, -1, 0, 0xffff880000001000⟩

/-- The bytes `fincore_helper` writes for a line: the line and its NUL. -/
def written (line : String) : List Char := line.toList ++ [Char.ofNat 0]

/-- A provider for a fully dense cache: it reports `max_pages` pages found. -/
def dense_provider (_pgstart max_pages : Nat) (vec : List Nat) : Option (List Nat × Nat) :=
  some (vec, max_pages)

/-- A C library with 4096-byte pages in which every call succeeds, except
that `mmap` refuses a zero-length mapping with `EINVAL`. -/
def sample_helper_env : HelperEnv :=
  { page_size := 4096
    fcntl_errno := none
    open_errno := none
    mmap := fun size => if size = 0 then none else some 0x7f0000000000
    mmap_errno := EINVAL
    write_errno := none }

/-- Highest user address plus one on x86-64 (`TASK_SIZE_MAX`). -/
def TASK_SIZE_MAX : Nat := 0x7ffffffff000

/-- A process as `sample_env`, with the address checks of x86-64: `access_ok`
accepts a range that ends at or below `TASK_SIZE_MAX`, and `copy_to_user`
succeeds on such a range. -/
def strict_env (pages : List Page) : Env :=
  { alloc_page := true
    mutex_lock_interruptible := 0
    copy_from_user := true
    access_ok := fun addr size => decide (addr + size ≤ TASK_SIZE_MAX)
    fdget := fun fd => if fd = 3 then some ⟨false, pages⟩ else none
    copy_to_user := fun addr bytes => decide (addr + bytes.length ≤ TASK_SIZE_MAX) }

/-- The string that the format `"%d %zu %zu %p\n"` of `fincore_helper` denotes
for the given arguments, before `snprintf` cuts it to its buffer. -/
def helper_line (fd start : Int) (length address : Nat) : List Char :=
  render_int fd ++ ' ' :: render_u64 10 (to_u64 start) ++
    ' ' :: render_u64 10 length ++ ' ' :: render_ptr address ++ ['\n']

/-- Number of status bytes that the transfers of a scan delivered: the sizes
of the successful `copy_to_user` calls, added up. -/
def bytes_transferred : List (Nat × List Nat × Bool) → Nat
  | [] => 0
  | c :: cs => (if c.2.2 then c.2.1.length else 0) + bytes_transferred cs

/-! ## Theorems -/

/-! ### print_results -/

/-- C1 (fails on the code): on the vector `[0, 1]` with length 2 the hole loop
moves to the last index and returns without looking at it, so nothing is
printed although index 1 holds a non-zero byte. -/
theorem print_results_skips_last_page :
    print_results [0, 1] 2 = ⟨[], .returned⟩ := by
  decide

/-- C2 (fails on the code): a run that ends at the last index makes the run
loop evaluate `vec[N]` (here `vec[1]` of a 1-entry vector), and a hole that
starts at the last index makes the hole loop evaluate `vec[N]` (here `vec[2]` of
a 2-entry vector, after the record of the run was printed). -/
theorem print_results_reads_past_end :
    print_results [1] 1 = ⟨[], .fault 1⟩ ∧
    print_results [1, 0] 2 = ⟨[⟨0, 1, 1, "U_______"⟩], .fault 2⟩ := by
  decide

/-- C3 (fails on the code): with length 5 the bound test `i == length - 1` of
the run loop is true in the first round (`i` is 4 after the header), so the run
`[1, 1]` is cut after one page and printed as two adjacent records with the
same flags. -/
theorem print_results_splits_run :
    print_results [1, 1, 0, 0, 0] 5 =
      ⟨[⟨0, 1, 1, "U_______"⟩, ⟨1, 1, 1, "U_______"⟩], .returned⟩ := by
  decide

/-- C4 (fails on the code): on `[0,0,3,3,3,0,1,0]` with length 8 the two records
of the scenario are printed, but the scan does not stop there: it evaluates
`vec[8]`, outside the 8-entry vector. When the vector is the start of a larger
object, a non-zero byte at index 8 is printed as a third record. -/
theorem print_results_scenario_overruns :
    print_results [0, 0, 3, 3, 3, 0, 1, 0] 8 =
      ⟨[⟨2, 3, 3, "UA______"⟩, ⟨6, 1, 1, "U_______"⟩], .fault 8⟩ ∧
    print_results [0, 0, 3, 3, 3, 0, 1, 0, 5, 0] 8 =
      ⟨[⟨2, 3, 3, "UA______"⟩, ⟨6, 1, 1, "U_______"⟩, ⟨8, 1, 5, "U_R_____"⟩], .returned⟩ := by
  decide

/-- When the hole loop stops on a page, that page is inside the vector and its
byte is not zero. -/
theorem hole_loop_found {length : Nat} :
    ∀ (rest : List Nat) (p q : Nat) (rest1 : List Nat),
      hole_loop length rest p = .found q rest1 →
      rest1.length ≤ rest.length ∧ ∃ b tl, rest1 = b :: tl ∧ b ≠ 0 := by
  intro rest
  induction rest with
  | nil => intro p q rest1 h; simp [hole_loop] at h
  | cons b tl ih =>
    intro p q rest1 h
    unfold hole_loop at h
    by_cases hb : b = 0
    · rw [if_pos hb] at h
      by_cases hp : p + 1 = length - 1
      · rw [if_pos hp] at h; cases h
      · rw [if_neg hp] at h
        obtain ⟨h1, h2⟩ := ih (p + 1) q rest1 h
        exact ⟨Nat.le_succ_of_le h1, h2⟩
    · rw [if_neg hb] at h
      cases h
      exact ⟨Nat.le_refl _, b, tl, rfl, hb⟩

/-- The run loop never moves backwards. -/
theorem run_loop_done_length {length i flags : Nat} :
    ∀ (rest : List Nat) (p run q run1 : Nat) (rest2 : List Nat),
      run_loop length i flags rest p run = .done q run1 rest2 →
      rest2.length ≤ rest.length := by
  intro rest
  induction rest with
  | nil => intro p run q run1 rest2 h; simp [run_loop] at h
  | cons b tl ih =>
    intro p run q run1 rest2 h
    unfold run_loop at h
    by_cases hb : b ≠ 0 ∧ b = flags
    · rw [if_pos hb] at h
      by_cases hi : i = length - 1
      · rw [if_pos hi] at h; cases h; exact Nat.le_succ _
      · rw [if_neg hi] at h
        exact Nat.le_succ_of_le (ih _ _ _ _ _ h)
    · rw [if_neg hb] at h
      cases h
      exact Nat.le_refl _

/-- Entered on a non-zero byte equal to `flags`, the run loop consumes at least
that byte. -/
theorem run_loop_done_lt {length i b : Nat} (hb : b ≠ 0) (tl : List Nat) (p run q run1 : Nat)
    (rest2 : List Nat) (h : run_loop length i b (b :: tl) p run = .done q run1 rest2) :
    rest2.length ≤ tl.length := by
  unfold run_loop at h
  rw [if_pos ⟨hb, rfl⟩] at h
  by_cases hi : i = length - 1
  · rw [if_pos hi] at h; cases h; exact Nat.le_refl _
  · rw [if_neg hi] at h
    exact run_loop_done_length _ _ _ _ _ _ h

/-- Fuel exceeding the number of entries left is never exhausted: every round
of the outer loop consumes an entry or ends the execution. -/
theorem do_loop_exit_ne_out_of_fuel (length : Nat) :
    ∀ (fuel i : Nat) (rest : List Nat) (p : Nat), rest.length < fuel →
      (do_loop length fuel i rest p).exit ≠ .out_of_fuel := by
  intro fuel
  induction fuel with
  | zero => intro i rest p h; exact absurd h (Nat.not_lt_zero _)
  | succ n ih =>
    intro i rest p h
    unfold do_loop
    cases hh : hole_loop length rest p with
    | returned => simp
    | fault q => simp
    | found start rest1 =>
      obtain ⟨hlen, b, tl, hrest1, hb⟩ := hole_loop_found rest p start rest1 hh
      subst hrest1
      simp only [List.head?_cons]
      cases hr : run_loop length i b (b :: tl) start 0 with
      | fault q => simp
      | done q run rest2 =>
        have h2 := run_loop_done_lt hb tl start 0 q run rest2 hr
        simp only
        split
        · exact ih _ rest2 q (by simp only [List.length_cons] at hlen; omega)
        · simp

/-- The fuel that `print_results` gives its outer loop always suffices: an
execution ends by a return or by a read outside the vector. -/
theorem print_results_exit_ne_out_of_fuel (vec : List Nat) (length : Nat) :
    (print_results vec length).exit ≠ .out_of_fuel := by
  unfold print_results
  split
  · simp
  · exact do_loop_exit_ne_out_of_fuel length _ _ vec 0 (Nat.lt_succ_self _)

/-! ### kernel module -/

/-- C5 (fails on the code): the request covers three pages of a file whose
pages 0 and 2 are resident, and the destination cannot be written. The
transfer of the window fails, the loop is left with `ret = -EFAULT`, and the
handler then returns `len` (26, the bytes written to the channel). -/
theorem fincore_file_write_copy_failure_returns_len :
    fincore_file_write linux kstrtox (sample_env [sample_page 0, sample_page 2] false)
        fresh_info (written "3 0 12288 0x7f0000000000\n") 0 10 =
      some ⟨26, [(0, 3)], [(0x7f0000000000, [3, 0, 3], false)],
        ⟨3, 0, 12288, 0x7f0000000000⟩⟩ := by
  decide

/-- C6 (fails on the code): with a single resident page at index 5 and the
window `[0, 4)`, `do_fincore` never returns: every round of the outer loop
finds page 5, leaves the inner loop at once and starts again with `length`
still 0. -/
theorem do_fincore_page_beyond_window_never_returns (fuel : Nat) (vec : List Nat) :
    do_fincore linux [sample_page 5] 0 4 vec fuel = none := by
  unfold do_fincore
  induction fuel with
  | zero => rfl
  | succ n ih =>
    have hlook : radix_tree_gang_lookup [sample_page 5] ((0 + 0) % 2 ^ 64) linux.PAGEVEC_SIZE
        = [sample_page 5] := by decide
    have hfor : for_pages 0 4 [sample_page 5] vec 0 = (vec, 0) := by
      have hoff : page_offset (sample_page 5).index 0 = 5 := by decide
      simp [for_pages, hoff]
    simp only [do_fincore_loop, hlook, hfor]
    simpa using ih

/-- C9 (fails on the code): the start token 4294967296 (`2 ^ 32`) is stored
through `(int) start`, which leaves 0, so the provider is called at page 0 and
not at page `2 ^ 32 / 4096 = 1048576`. -/
theorem fincore_file_write_start_truncated :
    fincore_file_write linux kstrtox (sample_env [sample_page 0] true)
        fresh_info (written "3 4294967296 4096 0x7f0000000000\n") 0 10 =
      some ⟨34, [(0, 1)], [(0x7f0000000000, [3], true)],
        ⟨3, 0, 4096, 0x7f0000000001⟩⟩ := by
  decide

/-- C10 (fails on the code): a line whose length token is 0 is accepted; the
handler makes no provider call and returns `len` (22), not `-EINVAL`. -/
theorem fincore_file_write_zero_length_succeeds :
    fincore_file_write linux kstrtox (sample_env [sample_page 0] true)
        fresh_info (written "3 0 0 0x7f0000000000\n") 0 10 =
      some ⟨22, [], [], ⟨3, 0, 0, 0x7f0000000000⟩⟩ := by
  decide

/-! ### arithmetic of the page counts -/

/-- The page size is positive. -/
theorem Config.PAGE_SIZE_pos (K : Config) : 0 < K.PAGE_SIZE := by
  unfold Config.PAGE_SIZE
  rw [Nat.one_shiftLeft]
  exact Nat.pos_pow_of_pos _ (by norm_num)

/-- A page shift below 63 keeps the page size in the range of `ssize_t`. -/
theorem Config.PAGE_SIZE_lt (K : Config) (h : K.PAGE_SHIFT < 63) : K.PAGE_SIZE < 2 ^ 63 := by
  unfold Config.PAGE_SIZE
  rw [Nat.one_shiftLeft]
  exact Nat.pow_lt_pow_right (by norm_num) h

/-- Values below `2 ^ 63` keep their value as `ssize_t`. -/
theorem to_s64_of_lt {n : Nat} (h : n < 2 ^ 63) : to_s64 n = (n : Int) := by
  unfold to_s64
  have h1 : n % 2 ^ 64 = n := Nat.mod_eq_of_lt (by omega)
  rw [h1, if_pos h]

/-- Scanning one window lowers the number of windows left by one. -/
theorem ceil_div_step {T W : Nat} (hW : 0 < W) (hT : 0 < T) :
    (T - min T W + W - 1) / W + 1 = (T + W - 1) / W := by
  rcases Nat.lt_or_ge T W with h | h
  · have h1 : min T W = T := Nat.min_eq_left (Nat.le_of_lt h)
    rw [h1]
    have h2 : (T - T + W - 1) / W = 0 := Nat.div_eq_of_lt (by omega)
    have h3 : T + W - 1 = (T - 1) + W := by omega
    rw [h2, h3, Nat.add_div_right _ hW, Nat.div_eq_of_lt (by omega)]
  · have h1 : min T W = W := Nat.min_eq_right h
    rw [h1]
    have h3 : T + W - 1 = (T - W + W - 1) + W := by omega
    rw [h3, Nat.add_div_right _ hW]

/-- The scan loop over a dense provider, with transfers that succeed: it
returns, and the window sizes of its calls are the expected ones. -/
theorem scan_loop_dense_aux (K : Config) (provider : Nat → Nat → List Nat → Option (List Nat × Nat))
    (copy_to_user : Nat → List Nat → Bool) (hK : K.PAGE_SHIFT < 63)
    (hdense : ∀ s n vec, ∃ v, provider s n vec = some (v, n))
    (hcopy : ∀ p b, copy_to_user p b = true) :
    ∀ (fuel T pgstart ptr : Nat) (ret : Int), T < 2 ^ 64 →
      (T + K.PAGE_SIZE - 1) / K.PAGE_SIZE < fuel →
      ∃ r, scan_loop K provider copy_to_user fuel ret T pgstart ptr = some r ∧
        r.calls.map Prod.snd = (List.range ((T + K.PAGE_SIZE - 1) / K.PAGE_SIZE)).map
          fun k => min (T - k * K.PAGE_SIZE) K.PAGE_SIZE := by
  intro fuel
  induction fuel with
  | zero => intro T pgstart ptr ret _ h; exact absurd h (Nat.not_lt_zero _)
  | succ n ih =>
    intro T pgstart ptr ret hT hfuel
    have hW := K.PAGE_SIZE_pos
    have hW63 := K.PAGE_SIZE_lt hK
    by_cases h0 : T = 0
    · subst h0
      refine ⟨⟨ret, 0, pgstart, ptr, [], []⟩, by simp [scan_loop], ?_⟩
      have h1 : (K.PAGE_SIZE - 1) / K.PAGE_SIZE = 0 := Nat.div_eq_of_lt (by omega)
      simp [h1]
    · obtain ⟨v, hv⟩ := hdense pgstart (min T K.PAGE_SIZE) (List.replicate K.PAGE_SIZE 0)
      have hm_pos : 0 < min T K.PAGE_SIZE := by omega
      have hm_le : min T K.PAGE_SIZE ≤ T := Nat.min_le_left _ _
      have hm63 : min T K.PAGE_SIZE < 2 ^ 63 := by omega
      have hs : to_s64 (min T K.PAGE_SIZE) = ((min T K.PAGE_SIZE : Nat) : Int) := to_s64_of_lt hm63
      have hc := ceil_div_step hW (Nat.pos_of_ne_zero h0)
      generalize hm : min T K.PAGE_SIZE = m at *
      have hT1 : (T + 2 ^ 64 - m) % 2 ^ 64 = T - m := by omega
      obtain ⟨r, hr, hcalls⟩ := ih (T - m) ((pgstart + m) % 2 ^ 64) ((ptr + m) % 2 ^ 64) 0
        (by omega) (by omega)
      refine ⟨{ r with calls := (pgstart, m) :: r.calls,
                       copies := (ptr, v.take m, true) :: r.copies }, ?_, ?_⟩
      · have hnot : ¬ ((m : Int) ≤ 0) := by omega
        simp only [Nat.reducePow] at hT1 hr
        simp [scan_loop, h0, hm, hv, hs, hnot, hcopy, hT1, hr]
      · rw [← hc, List.range_succ_eq_map]
        simp only [List.map_cons, List.map_map, hcalls]
        congr 1
        · simp [hm]
        · apply List.map_congr_left
          intro k hk
          simp only [Function.comp]
          rcases Nat.lt_or_ge T K.PAGE_SIZE with h | h
          · have h1 : m = T := by omega
            have h2 : (T - m + K.PAGE_SIZE - 1) / K.PAGE_SIZE = 0 := by
              rw [h1]; exact Nat.div_eq_of_lt (by omega)
            rw [h2] at hk
            simp at hk
          · have h1 : m = K.PAGE_SIZE := by omega
            rw [h1, Nat.succ_mul]
            congr 1
            omega

/-- The quotient `(L + P - 1) / P` is the least `n` with `L ≤ n * P`. -/
theorem ceil_div_bounds {L P : Nat} (hP : 0 < P) (hL : 0 < L) :
    ((L + P - 1) / P - 1) * P < L ∧ L ≤ (L + P - 1) / P * P := by
  have h := Nat.div_add_mod (L + P - 1) P
  have hr := Nat.mod_lt (L + P - 1) hP
  have hq : 0 < (L + P - 1) / P := Nat.div_pos (by omega) hP
  obtain ⟨q, hq1⟩ : ∃ q, (L + P - 1) / P = q + 1 := ⟨(L + P - 1) / P - 1, by omega⟩
  rw [hq1] at h ⊢
  rw [Nat.mul_succ] at h
  rw [Nat.add_sub_cancel, Nat.succ_mul, Nat.mul_comm q P]
  constructor <;> omega

/-- C7 (amended): for a provider that always reports `max_pages` pages found
and a destination every transfer to which succeeds, the scan loop started with
`T` remaining pages (pages smaller than `2 ^ 63` bytes, enough fuel) returns
after exactly `ceil (T / PAGE_SIZE)` provider calls, the `k`-th of them with
`max_pages = min (T - k * PAGE_SIZE) PAGE_SIZE`, the minimum of the pages then
remaining and the window size. -/
theorem scan_loop_dense_provider_calls (K : Config)
    (provider : Nat → Nat → List Nat → Option (List Nat × Nat))
    (copy_to_user : Nat → List Nat → Bool) (T pgstart ptr fuel : Nat) (ret : Int)
    (hK : K.PAGE_SHIFT < 63) (hT : T < 2 ^ 64)
    (hdense : ∀ s n vec, ∃ v, provider s n vec = some (v, n))
    (hcopy : ∀ p b, copy_to_user p b = true)
    (hfuel : (T + K.PAGE_SIZE - 1) / K.PAGE_SIZE < fuel) :
    (scan_loop K provider copy_to_user fuel ret T pgstart ptr).map (fun r => r.calls.length)
      = some ((T + K.PAGE_SIZE - 1) / K.PAGE_SIZE) ∧
    (scan_loop K provider copy_to_user fuel ret T pgstart ptr).map
        (fun r => r.calls.map Prod.snd)
      = some ((List.range ((T + K.PAGE_SIZE - 1) / K.PAGE_SIZE)).map
          fun k => min (T - k * K.PAGE_SIZE) K.PAGE_SIZE) := by
  obtain ⟨r, hr, hcalls⟩ :=
    scan_loop_dense_aux K provider copy_to_user hK hdense hcopy fuel T pgstart ptr ret hT hfuel
  have hlen := congrArg List.length hcalls
  simp only [List.length_map, List.length_range] at hlen
  simp [hr, hcalls, hlen]

/-- Witness of C7 (amended): 10000 pages over 4096-entry windows take three
provider calls. -/
theorem scan_loop_dense_provider_calls_witness :
    (scan_loop linux dense_provider (fun _ _ => true) 4 0 10000 0 0).map
        (fun r => r.calls.length)
      = some ((10000 + linux.PAGE_SIZE - 1) / linux.PAGE_SIZE) ∧
    (scan_loop linux dense_provider (fun _ _ => true) 4 0 10000 0 0).map
        (fun r => r.calls.map Prod.snd)
      = some ((List.range ((10000 + linux.PAGE_SIZE - 1) / linux.PAGE_SIZE)).map
          fun k => min (10000 - k * linux.PAGE_SIZE) linux.PAGE_SIZE) :=
  scan_loop_dense_provider_calls linux dense_provider (fun _ _ => true) 10000 0 0 4 0
    (by decide) (by decide) (fun _ _ vec => ⟨vec, rfl⟩) (fun _ _ => rfl) (by decide)

/-- C7 (as stated, fails): with a dense provider and two windows of pages to
scan (8192 pages, `ceil (8192 / 4096) = 2`), a destination that cannot be
written makes the loop stop after a single provider call. -/
theorem scan_loop_failed_copy_single_call :
    (scan_loop linux dense_provider (fun _ _ => false) 3 0 8192 0 0).map (fun r => r.calls)
      = some [(0, 4096)] ∧
    (8192 + linux.PAGE_SIZE - 1) / linux.PAGE_SIZE = 2 := by
  decide

/-- C8 (amended): for a request length `L > 0` such that `L + P - 1` does not
exceed the 64-bit range, the number `n` of entries computed by
`fincore_helper` (page size `P > 0`) and by the handler
(`DIV_ROUND_UP (length, PAGE_SIZE)`) is `ceil (L / P)`: `(n - 1) * P < L ≤ n * P`. -/
theorem nr_pages_eq_ceil (E : HelperEnv) (fd start : Int) (K : Config) (L : Nat)
    (hf : E.fcntl_errno = none) (ho : E.open_errno = none) (hP : 0 < E.page_size)
    (hL : 0 < L) (hu : L + E.page_size - 1 < 2 ^ 64) (hk : L + K.PAGE_SIZE - 1 < 2 ^ 64) :
    (∃ n, (fincore_helper E fd start L).nr_pages = some n ∧
        (n - 1) * E.page_size < L ∧ L ≤ n * E.page_size) ∧
    (DIV_ROUND_UP L K.PAGE_SIZE - 1) * K.PAGE_SIZE < L ∧
      L ≤ DIV_ROUND_UP L K.PAGE_SIZE * K.PAGE_SIZE := by
  refine ⟨⟨helper_nr_pages E.page_size L, ?_, ?_⟩, ?_⟩
  · have hL0 : L ≠ 0 := Nat.pos_iff_ne_zero.mp hL
    simp only [fincore_helper, hf, ho, hL0, if_false]
    cases E.mmap (helper_nr_pages E.page_size L * E.page_size % 2 ^ 64) with
    | none => rfl
    | some a => cases E.write_errno <;> rfl
  · unfold helper_nr_pages
    rw [Nat.mod_eq_of_lt hu]
    exact ceil_div_bounds hP hL
  · unfold DIV_ROUND_UP
    rw [Nat.mod_eq_of_lt hk]
    exact ceil_div_bounds K.PAGE_SIZE_pos hL

/-- Witness of C8 (amended): a request of 4097 bytes with 4096-byte pages. -/
theorem nr_pages_eq_ceil_witness :
    (∃ n, (fincore_helper sample_helper_env 3 0 4097).nr_pages = some n ∧
        (n - 1) * sample_helper_env.page_size < 4097 ∧
        4097 ≤ n * sample_helper_env.page_size) ∧
    (DIV_ROUND_UP 4097 linux.PAGE_SIZE - 1) * linux.PAGE_SIZE < 4097 ∧
      4097 ≤ DIV_ROUND_UP 4097 linux.PAGE_SIZE * linux.PAGE_SIZE :=
  nr_pages_eq_ceil sample_helper_env 3 0 linux 4097 rfl rfl (by decide) (by decide)
    (by decide) (by decide)

/-- C8 (as stated, fails): for `L = 2 ^ 64 - 1` and 4096-byte pages the sum
`L + P - 1` wraps to 4094, so both computations give 0 entries, where
`ceil (L / P)` is `2 ^ 52`. -/
theorem nr_pages_wraps_to_zero :
    (fincore_helper sample_helper_env 3 0 (2 ^ 64 - 1)).nr_pages = some 0 ∧
    DIV_ROUND_UP (2 ^ 64 - 1) linux.PAGE_SIZE = 0 ∧
    ¬ (2 ^ 64 - 1 ≤ 0 * linux.PAGE_SIZE) := by
  decide

/-! ### request validation -/

/-- C11 (fails on the code): on a file without unsigned offsets, the line
`3 4096 -4096` is decoded to start 4096 and length `2 ^ 64 - 4096`; the sum
wraps to 0, the overflow test does not fire, and the provider is called. The
line `3 -4294967296 4096 0x7f0000000000`, whose start token is negative, is
stored as start 0 by the `(int)` cast and is scanned from page 0. -/
theorem fincore_file_write_overflow_unnoticed :
    fincore_file_write linux kstrtox (strict_env []) fresh_info (written "3 4096 -4096") 0 10 =
      some ⟨13, [(1, 4096)], [], ⟨3, 4096, 2 ^ 64 - 4096, 0xffff880000001000⟩⟩ ∧
    fincore_file_write linux kstrtox (strict_env [sample_page 0]) fresh_info
        (written "3 -4294967296 4096 0x7f0000000000\n") 0 10 =
      some ⟨35, [(0, 1)], [(0x7f0000000000, [3], true)],
        ⟨3, 0, 4096, 0x7f0000000001⟩⟩ := by
  decide

/-- The sanity checks of the handler, on the request as decoded: on a file
without unsigned offsets a negative start, or a sum `start + length` whose
64-bit value is negative as a `loff_t`, gives `-EINVAL` and no provider call. -/
theorem fincore_file_write_sanity_checks (K : Config) (L : Lib) (E : Env)
    (info info1 : fincore_info) (buf : List Char) (fuel : Nat) (f : File)
    (halloc : E.alloc_page = true) (hlock : E.mutex_lock_interruptible = 0)
    (hcopy : E.copy_from_user = true)
    (hparse : fincore_parse_options L E.access_ok info
      ((buf.take (min (FINCORE_MAX_ARGUMENT_SIZE - 1) buf.length)).takeWhile
        fun c => c ≠ Char.ofNat 0) = (true, info1))
    (hfd : E.fdget info1.fd = some f) (hf : f.unsigned_offsets = false)
    (hbad : info1.start < 0 ∨ to_s64 (to_u64 info1.start + info1.length) < 0) :
    fincore_file_write K L E info buf 0 fuel = some ⟨-(EINVAL : Int), [], [], info1⟩ := by
  unfold fincore_file_write
  simp only [halloc, hlock, hcopy, hparse, hfd, hf]
  by_cases hs : info1.start < 0
  · simp [hs]
  · rcases hbad with h | h
    · exact absurd h hs
    · simp [hs, h]

/-- C12 (fails on the code): the three-token line `3 0 4096` is accepted; the
destination token is never asked for (`access_ok` is not even consulted) and
the request keeps the pointer it held before. -/
theorem fincore_parse_options_accepts_three_tokens :
    fincore_parse_options kstrtox (fun _ _ => false) fresh_info "3 0 4096".toList =
      (true, ⟨3, 0, 4096, 0xffff880000001000⟩) := by
  decide

/-- A line with at least four tokens whose length and destination tokens
decode, and whose destination fails `access_ok`, is refused by the parser. -/
theorem parse_tokens_refuses_inaccessible (L : Lib) (access_ok : Nat → Nat → Bool)
    (info : fincore_info) (t0 t1 t2 t3 : List Char) (rest : List (List Char)) (len : Int)
    (ptr : Nat) (h2 : L.kstrtoll t2 0 = .ok len) (h3 : L.kstrtoull t3 16 = .ok ptr)
    (ha : access_ok ptr (to_u64 len) = false) :
    (parse_tokens L access_ok (t0 :: t1 :: t2 :: t3 :: rest) 0 0 info).1 = false := by
  simp only [parse_tokens]
  split
  · rfl
  · cases h1 : L.kstrtoll t1 0 with
    | error e => rfl
    | ok start => simp [h2, h3, ha]

/-- C13 (amended): when the handler reaches the parser with a line of at least
four tokens whose length token decodes to `len` and whose destination token
decodes to an address that fails `access_ok (VERIFY_WRITE, ptr, len)`, it
returns `-EINVAL`, the error of every malformed line, and calls no provider. -/
theorem fincore_file_write_inaccessible_destination (K : Config) (L : Lib) (E : Env)
    (info : fincore_info) (buf : List Char) (fuel : Nat) (t0 t1 t2 t3 : List Char)
    (rest : List (List Char)) (len : Int) (ptr : Nat)
    (halloc : E.alloc_page = true) (hlock : E.mutex_lock_interruptible = 0)
    (hcopy : E.copy_from_user = true)
    (htok : split_tokens ((buf.take (min (FINCORE_MAX_ARGUMENT_SIZE - 1) buf.length)).takeWhile
        fun c => c ≠ Char.ofNat 0) = t0 :: t1 :: t2 :: t3 :: rest)
    (h2 : L.kstrtoll t2 0 = .ok len) (h3 : L.kstrtoull t3 16 = .ok ptr)
    (ha : E.access_ok ptr (to_u64 len) = false) :
    (fincore_file_write K L E info buf 0 fuel).map (fun r => (r.ret, r.calls)) =
      some (-(EINVAL : Int), []) := by
  have hp := parse_tokens_refuses_inaccessible L E.access_ok info t0 t1 t2 t3 rest len ptr h2 h3 ha
  unfold fincore_file_write
  simp only [halloc, hlock, hcopy, fincore_parse_options, htok]
  cases hpp : parse_tokens L E.access_ok (t0 :: t1 :: t2 :: t3 :: rest) 0 0 info with
  | mk b info1 =>
    rw [hpp] at hp
    simp only at hp
    subst hp
    simp

/-- Witness of C13 (amended): a destination in kernel space. -/
theorem fincore_file_write_inaccessible_destination_witness :
    (fincore_file_write linux kstrtox (strict_env [sample_page 0]) fresh_info
        (written "3 0 4096 0xffff880000000000\n") 0 10).map (fun r => (r.ret, r.calls)) =
      some (-(EINVAL : Int), []) :=
  fincore_file_write_inaccessible_destination linux kstrtox (strict_env [sample_page 0])
    fresh_info (written "3 0 4096 0xffff880000000000\n") 10
    "3".toList "0".toList "4096".toList "0xffff880000000000\n".toList [] 4096
    0xffff880000000000 rfl rfl rfl (by decide) rfl rfl (by decide)

/-- C13 (as stated, fails): a destination that is not accessible gives
`-EINVAL` (-22), the value a malformed start token gives, not `-EACCES` (-13). -/
theorem fincore_file_write_inaccessible_is_einval :
    (fincore_file_write linux kstrtox (strict_env [sample_page 0]) fresh_info
        (written "3 0 4096 0xffff880000000000\n") 0 10).map (fun r => r.ret) = some (-22) ∧
    (fincore_file_write linux kstrtox (strict_env [sample_page 0]) fresh_info
        (written "3 zero 4096 0x7f0000000000\n") 0 10).map (fun r => r.ret) = some (-22) ∧
    -(EINVAL : Int) = -22 ∧ -(EACCES : Int) = -13 := by
  decide

/-- C18 (fails on the code): `do_fincore` does not return when a resident page
lies at or past the end of the window, also when the window holds resident
pages: with pages 1 and 9 and the window `[0, 4)`, and with pages 3 and 4 and
the same window (where page 3 fills the window), the outer loop never ends. -/
theorem do_fincore_never_returns_with_page_past_window (fuel : Nat) (vec : List Nat) :
    do_fincore linux [sample_page 1, sample_page 9] 0 4 vec fuel = none ∧
    do_fincore linux [sample_page 3, sample_page 4] 0 4 vec fuel = none := by
  have hfix1 : ∀ (n : Nat) (v : List Nat),
      do_fincore_loop linux [sample_page 1, sample_page 9] 0 4 n v 2 = none := by
    intro n
    induction n with
    | zero => intro v; rfl
    | succ n ih =>
      intro v
      have hlook : radix_tree_gang_lookup [sample_page 1, sample_page 9] ((0 + 2) % 2 ^ 64)
          linux.PAGEVEC_SIZE = [sample_page 9] := by decide
      have hoff : page_offset (sample_page 9).index 0 = 9 := by decide
      have hfor : for_pages 0 4 [sample_page 9] v 2 = (v, 2) := by simp [for_pages, hoff]
      simp only [do_fincore_loop, hlook, hfor]
      simpa using ih v
  have hfix2 : ∀ (n : Nat) (v : List Nat),
      do_fincore_loop linux [sample_page 3, sample_page 4] 0 4 n v 4 = none := by
    intro n
    induction n with
    | zero => intro v; rfl
    | succ n ih =>
      intro v
      have hlook : radix_tree_gang_lookup [sample_page 3, sample_page 4] ((0 + 4) % 2 ^ 64)
          linux.PAGEVEC_SIZE = [sample_page 4] := by decide
      have hoff : page_offset (sample_page 4).index 0 = 4 := by decide
      have hfor : for_pages 0 4 [sample_page 4] v 4 = (v, 4) := by simp [for_pages, hoff]
      simp only [do_fincore_loop, hlook, hfor]
      simpa using ih v
  unfold do_fincore
  constructor
  · cases fuel with
    | zero => rfl
    | succ n =>
      have hlook : radix_tree_gang_lookup [sample_page 1, sample_page 9] ((0 + 0) % 2 ^ 64)
          linux.PAGEVEC_SIZE = [sample_page 1, sample_page 9] := by decide
      have hoff1 : page_offset (sample_page 1).index 0 = 1 := by decide
      have hoff9 : page_offset (sample_page 9).index 0 = 9 := by decide
      have hfor : for_pages 0 4 [sample_page 1, sample_page 9] vec 0 =
          (vec.set 1 (fincore_page_flags (sample_page 1)), 2) := by
        simp [for_pages, hoff1, hoff9]
      simp only [do_fincore_loop, hlook, hfor]
      simpa using hfix1 n _
  · cases fuel with
    | zero => rfl
    | succ n =>
      have hlook : radix_tree_gang_lookup [sample_page 3, sample_page 4] ((0 + 0) % 2 ^ 64)
          linux.PAGEVEC_SIZE = [sample_page 3, sample_page 4] := by decide
      have hoff3 : page_offset (sample_page 3).index 0 = 3 := by decide
      have hfor : for_pages 0 4 [sample_page 3, sample_page 4] vec 0 =
          (vec.set 3 (fincore_page_flags (sample_page 3)), 4) := by
        simp [for_pages, hoff3]
      simp only [do_fincore_loop, hlook, hfor]
      simpa using hfix2 n _

/-! ### the argument line -/

/-- A number below `base ^ k` has at most `k` digits. -/
theorem digits_rev_length_le (base : Nat) :
    ∀ (fuel n k : Nat), 1 ≤ k → n < base ^ k → (digits_rev base fuel n).length ≤ k := by
  intro fuel
  induction fuel with
  | zero => intro n k _ _; simp [digits_rev]
  | succ m ih =>
    intro n k hk hn
    unfold digits_rev
    by_cases h : n < base
    · simp [h]; exact hk
    · rw [if_neg h]
      obtain ⟨j, rfl⟩ : ∃ j, k = j + 1 := ⟨k - 1, by omega⟩
      have hj : 1 ≤ j := by
        rcases Nat.eq_zero_or_pos j with h0 | h0
        · subst h0; simp at hn; omega
        · exact h0
      have hdiv : n / base < base ^ j := by
        apply Nat.div_lt_of_lt_mul
        rw [Nat.pow_succ, Nat.mul_comm] at hn
        exact hn
      have := ih (n / base) j hj hdiv
      simp only [List.length_cons]
      omega

/-- A 64-bit value has at most 20 decimal digits. -/
theorem render_u64_dec_length (n : Nat) : (render_u64 10 n).length ≤ 20 := by
  unfold render_u64
  rw [List.length_map, List.length_reverse]
  exact digits_rev_length_le 10 64 _ 20 (by norm_num)
    (Nat.lt_of_lt_of_le (Nat.mod_lt _ (by norm_num)) (by norm_num))

/-- A 64-bit value has at most 16 hexadecimal digits. -/
theorem render_u64_hex_length (n : Nat) : (render_u64 16 n).length ≤ 16 := by
  unfold render_u64
  rw [List.length_map, List.length_reverse]
  exact digits_rev_length_le 16 64 _ 16 (by norm_num)
    (Nat.lt_of_lt_of_le (Nat.mod_lt _ (by norm_num)) (by norm_num))

/-- A value up to `2 ^ 31` has at most 10 decimal digits. -/
theorem render_u64_dec_length_small (n : Nat) (h : n ≤ 2 ^ 31) :
    (render_u64 10 n).length ≤ 10 := by
  unfold render_u64
  rw [List.length_map, List.length_reverse]
  have h1 : n % 2 ^ 64 ≤ n := Nat.mod_le _ _
  exact digits_rev_length_le 10 64 _ 10 (by norm_num) (by omega)

/-- An `int` takes at most 11 characters under `%d`. -/
theorem render_int_length (fd : Int) (hlo : -(2 : Int) ^ 31 ≤ fd) (hhi : fd < 2 ^ 31) :
    (render_int fd).length ≤ 11 := by
  unfold render_int
  split
  · have := render_u64_dec_length_small (-fd).toNat (by omega)
    simp only [List.length_cons]
    omega
  · have := render_u64_dec_length_small fd.toNat (by omega)
    omega

/-- A pointer takes at most 18 characters under `%p`. -/
theorem render_ptr_length (p : Nat) : (render_ptr p).length ≤ 18 := by
  unfold render_ptr
  split
  · decide
  · have := render_u64_hex_length p
    simp only [List.length_cons]
    omega

/-- C14: for a descriptor in the range of `int` and any start, length and
destination address, the line `"%d %zu %zu %p\n"` and its NUL take at most 74
bytes, within `FINCORE_MAX_ARGUMENT_SIZE = 120`: `snprintf` keeps the whole
line (what `fincore_helper` hands to `write` is the line itself), and the
handler's limit `min (sizeof (buffer) - 1, len)` keeps all the bytes written. -/
theorem helper_line_fits (fd start : Int) (length address : Nat)
    (hlo : -(2 : Int) ^ 31 ≤ fd) (hhi : fd < 2 ^ 31) :
    (helper_line fd start length address).length + 1 ≤ 74 ∧
    (helper_line fd start length address).length + 1 ≤ FINCORE_MAX_ARGUMENT_SIZE ∧
    (helper_line fd start length address).take (FINCORE_MAX_ARGUMENT_SIZE - 1) =
      helper_line fd start length address ∧
    min (FINCORE_MAX_ARGUMENT_SIZE - 1) ((helper_line fd start length address).length + 1) =
      (helper_line fd start length address).length + 1 ∧
    ∀ E : HelperEnv, E.fcntl_errno = none → E.open_errno = none → length ≠ 0 →
      E.mmap (helper_nr_pages E.page_size length * E.page_size % 2 ^ 64) = some address →
      (fincore_helper E fd start length).args = some (helper_line fd start length address) := by
  have h1 := render_int_length fd hlo hhi
  have h2 := render_u64_dec_length (to_u64 start)
  have h3 := render_u64_dec_length length
  have h4 := render_ptr_length address
  have hlen : (helper_line fd start length address).length + 1 ≤ 74 := by
    unfold helper_line
    simp only [List.length_append, List.length_cons, List.length_nil]
    omega
  have hmax : FINCORE_MAX_ARGUMENT_SIZE = 120 := rfl
  have htake : (helper_line fd start length address).take (FINCORE_MAX_ARGUMENT_SIZE - 1) =
      helper_line fd start length address := by
    apply List.take_of_length_le
    rw [hmax]
    omega
  refine ⟨hlen, by rw [hmax]; omega, htake, by rw [hmax]; omega, ?_⟩
  intro E hf ho hl hm
  simp only [fincore_helper, hf, ho, hl, if_false, hm]
  have hline : render_int fd ++ ' ' :: render_u64 10 (to_u64 start) ++
      ' ' :: render_u64 10 length ++ ' ' :: render_ptr address ++ ['\n'] =
      helper_line fd start length address := rfl
  rw [hline, htake]
  cases E.write_errno <;> rfl

/-- Witness of C14: the extreme arguments (fd `-2 ^ 31`, start `-1`, that is
`2 ^ 64 - 1` under `%zu`, length and address `2 ^ 64 - 1`). -/
theorem helper_line_fits_witness :
    (helper_line (-(2 : Int) ^ 31) (-1) (2 ^ 64 - 1) (2 ^ 64 - 1)).length + 1 ≤ 74 ∧
    (helper_line (-(2 : Int) ^ 31) (-1) (2 ^ 64 - 1) (2 ^ 64 - 1)).length + 1 ≤
      FINCORE_MAX_ARGUMENT_SIZE ∧
    (helper_line (-(2 : Int) ^ 31) (-1) (2 ^ 64 - 1) (2 ^ 64 - 1)).take
        (FINCORE_MAX_ARGUMENT_SIZE - 1) =
      helper_line (-(2 : Int) ^ 31) (-1) (2 ^ 64 - 1) (2 ^ 64 - 1) ∧
    min (FINCORE_MAX_ARGUMENT_SIZE - 1)
        ((helper_line (-(2 : Int) ^ 31) (-1) (2 ^ 64 - 1) (2 ^ 64 - 1)).length + 1) =
      (helper_line (-(2 : Int) ^ 31) (-1) (2 ^ 64 - 1) (2 ^ 64 - 1)).length + 1 ∧
    ∀ E : HelperEnv, E.fcntl_errno = none → E.open_errno = none → 2 ^ 64 - 1 ≠ 0 →
      E.mmap (helper_nr_pages E.page_size (2 ^ 64 - 1) * E.page_size % 2 ^ 64) =
        some (2 ^ 64 - 1) →
      (fincore_helper E (-(2 : Int) ^ 31) (-1) (2 ^ 64 - 1)).args =
        some (helper_line (-(2 : Int) ^ 31) (-1) (2 ^ 64 - 1) (2 ^ 64 - 1)) :=
  helper_line_fits (-(2 : Int) ^ 31) (-1) (2 ^ 64 - 1) (2 ^ 64 - 1) (by decide) (by decide)

/-! ### status bytes -/

/-- Masking with `1 << k` tests bit `k`. -/
theorem and_two_pow_ne_zero (f k : Nat) : f &&& 2 ^ k ≠ 0 ↔ f.testBit k = true := by
  constructor
  · intro h
    by_contra hb
    apply h
    apply Nat.eq_of_testBit_eq
    intro i
    simp only [Nat.testBit_and, Nat.testBit_two_pow, Nat.zero_testBit]
    by_cases hki : k = i
    · subst hki; simp [hb]
    · simp [hki]
  · intro hb h
    have := congrArg (fun n => Nat.testBit n k) h
    simp [Nat.testBit_and, Nat.testBit_two_pow, hb] at this

/-- C15: for every flag byte `f` (indeed every value of `flags`) the string
rendered by `print_results` has exactly 8 characters, the `k`-th being the
first letter of the name of flag `k` (U, A, R, D, W, U, R, B for uptodate,
active, referenced, dirty, writeback, unevictable, reclaim, private) when bit
`k` of `f` is set and `_` when it is clear. -/
theorem str_flags_letters (f : Nat) :
    (str_flags f).length = 8 ∧
    (str_flags f).data =
      [ if f.testBit 0 then 'U' else '_', if f.testBit 1 then 'A' else '_',
        if f.testBit 2 then 'R' else '_', if f.testBit 3 then 'D' else '_',
        if f.testBit 4 then 'W' else '_', if f.testBit 5 then 'U' else '_',
        if f.testBit 6 then 'R' else '_', if f.testBit 7 then 'B' else '_' ] := by
  have h0 := and_two_pow_ne_zero f 0
  have h1 := and_two_pow_ne_zero f 1
  have h2 := and_two_pow_ne_zero f 2
  have h3 := and_two_pow_ne_zero f 3
  have h4 := and_two_pow_ne_zero f 4
  have h5 := and_two_pow_ne_zero f 5
  have h6 := and_two_pow_ne_zero f 6
  have h7 := and_two_pow_ne_zero f 7
  have hdata : (str_flags f).data =
      [ if f.testBit 0 then 'U' else '_', if f.testBit 1 then 'A' else '_',
        if f.testBit 2 then 'R' else '_', if f.testBit 3 then 'D' else '_',
        if f.testBit 4 then 'W' else '_', if f.testBit 5 then 'U' else '_',
        if f.testBit 6 then 'R' else '_', if f.testBit 7 then 'B' else '_' ] := by
    simp only [str_flags, page_flags, List.map, FPG_uptodate, FPG_active, FPG_referenced,
      FPG_dirty, FPG_writeback, FPG_unevictable, FPG_reclaim, FPG_private, Nat.one_shiftLeft]
    simp only [h0, h1, h2, h3, h4, h5, h6, h7]
    have e0 : "U:uptodate".front = 'U' := by decide
    have e1 : "A:active".front = 'A' := by decide
    have e2 : "R:referenced".front = 'R' := by decide
    have e3 : "D:dirty".front = 'D' := by decide
    have e4 : "W:writeback".front = 'W' := by decide
    have e5 : "U:unevictable".front = 'U' := by decide
    have e6 : "R:reclaim".front = 'R' := by decide
    have e7 : "B:buffers".front = 'B' := by decide
    rw [e0, e1, e2, e3, e4, e5, e6, e7]
  refine ⟨?_, hdata⟩
  show (str_flags f).data.length = 8
  rw [hdata]
  rfl

/-- C16: the byte computed by `fincore_page_flags` fits 8 bits; it is 0 exactly
when the page is not up to date, and otherwise has bit 0 set; bit `k` (1 to 7)
is set exactly when the page is up to date and its `k`-th predicate (active,
referenced, dirty, writeback, unevictable, reclaim, has-buffers) holds. -/
theorem fincore_page_flags_bits (page : Page) :
    fincore_page_flags page < 256 ∧
    (fincore_page_flags page = 0 ↔ page.uptodate = false) ∧
    (fincore_page_flags page = 0 ∨ (fincore_page_flags page).testBit FPG_uptodate = true) ∧
    (fincore_page_flags page).testBit FPG_uptodate = page.uptodate ∧
    (fincore_page_flags page).testBit FPG_active = (page.uptodate && page.active) ∧
    (fincore_page_flags page).testBit FPG_referenced = (page.uptodate && page.referenced) ∧
    (fincore_page_flags page).testBit FPG_dirty = (page.uptodate && page.dirty) ∧
    (fincore_page_flags page).testBit FPG_writeback = (page.uptodate && page.writeback) ∧
    (fincore_page_flags page).testBit FPG_unevicatable = (page.uptodate && page.unevictable) ∧
    (fincore_page_flags page).testBit FPG_reclaim = (page.uptodate && page.reclaim) ∧
    (fincore_page_flags page).testBit FPG_private = (page.uptodate && page.has_buffers) := by
  obtain ⟨idx, u, a, r, d, w, e, c, b⟩ := page
  have h : fincore_page_flags ⟨idx, u, a, r, d, w, e, c, b⟩ =
      fincore_page_flags ⟨0, u, a, r, d, w, e, c, b⟩ := rfl
  rw [h]
  dsimp only
  clear h idx
  cases u <;> cases a <;> cases r <;> cases d <;> cases w <;> cases e <;> cases c <;>
    cases b <;> decide

/-! ### invariants of the scan loop -/

/-- Two successive 64-bit additions are one addition of the sum. -/
theorem mod_add_mod_assoc (a f b : Nat) :
    ((a + f) % 2 ^ 64 + b) % 2 ^ 64 = (a + (f + b)) % 2 ^ 64 := by
  omega

/-- C17 (amended): for a provider that returns, with `pages_found ≤ max_pages`
(and the buffer it was given), the scan loop started with `T` remaining pages
ends (fuel above `T` suffices). With `done` the status bytes transferred so
far, at exit `done + remaining = T`, `pgstart` and the destination pointer have
both advanced by `done` (so `pgstart + remaining` is unchanged modulo `2 ^ 64`);
every provider call is made at `pgstart + w` with `max_pages = min (T - w)
PAGE_SIZE` for some `w < T`; every transfer goes to `ptr + w` with
`w + size ≤ T`, and the successful ones end at or below `ptr + done`. The loop
stops when no page remains, at the first call that returns 0, or at the first
transfer that fails. -/
theorem scan_loop_invariants (K : Config)
    (provider : Nat → Nat → List Nat → Option (List Nat × Nat))
    (copy_to_user : Nat → List Nat → Bool) (fuel T pgstart ptr : Nat) (ret : Int)
    (hK : K.PAGE_SHIFT < 63) (hT : T < 2 ^ 64) (hpg : pgstart < 2 ^ 64) (hptr : ptr < 2 ^ 64)
    (hprov : ∀ s n vec, ∃ v found, provider s n vec = some (v, found) ∧ found ≤ n ∧
      v.length = vec.length)
    (hfuel : T < fuel) :
    ∃ r, scan_loop K provider copy_to_user fuel ret T pgstart ptr = some r ∧
      bytes_transferred r.copies + r.nr_pages = T ∧
      r.pgstart = (pgstart + bytes_transferred r.copies) % 2 ^ 64 ∧
      r.ptr = (ptr + bytes_transferred r.copies) % 2 ^ 64 ∧
      (r.pgstart + r.nr_pages) % 2 ^ 64 = (pgstart + T) % 2 ^ 64 ∧
      (∀ c ∈ r.calls, ∃ w, w < T ∧ c.1 = (pgstart + w) % 2 ^ 64 ∧
        c.2 = min (T - w) K.PAGE_SIZE) ∧
      (∀ c ∈ r.copies, ∃ w, c.1 = (ptr + w) % 2 ^ 64 ∧ w + c.2.1.length ≤ T ∧
        (c.2.2 = true → w + c.2.1.length ≤ bytes_transferred r.copies)) ∧
      (r.nr_pages = 0 ∨
        (∃ s n v, r.calls.getLast? = some (s, n) ∧
          provider s n (List.replicate K.PAGE_SIZE 0) = some (v, 0)) ∨
        (∃ p b, r.copies.getLast? = some (p, b, false))) := by
  induction fuel generalizing T pgstart ptr ret with
  | zero => exact absurd hfuel (Nat.not_lt_zero _)
  | succ n ih =>
    have hW := K.PAGE_SIZE_pos
    have hW63 := K.PAGE_SIZE_lt hK
    by_cases h0 : T = 0
    · subst h0
      refine ⟨⟨ret, 0, pgstart, ptr, [], []⟩, by simp [scan_loop], ?_⟩
      simp only [bytes_transferred, List.not_mem_nil, false_implies, implies_true, true_and,
        true_or, and_true, Nat.add_zero]
      omega
    · obtain ⟨v, found, hv, hle, hvlen⟩ :=
        hprov pgstart (min T K.PAGE_SIZE) (List.replicate K.PAGE_SIZE 0)
      have hm_le : min T K.PAGE_SIZE ≤ T := Nat.min_le_left _ _
      have hm_leW : min T K.PAGE_SIZE ≤ K.PAGE_SIZE := Nat.min_le_right _ _
      have hf63 : found < 2 ^ 63 := by omega
      rw [List.length_replicate] at hvlen
      by_cases hf0 : found = 0
      · subst hf0
        refine ⟨⟨0, T, pgstart, ptr, [(pgstart, min T K.PAGE_SIZE)], []⟩, ?_, ?_⟩
        · have hs : to_s64 0 = (0 : Int) := by decide
          simp [scan_loop, h0, hv, hs]
        · simp only [bytes_transferred, List.not_mem_nil, false_implies, implies_true,
            List.mem_singleton, forall_eq, true_and, Nat.add_zero, Nat.zero_add]
          refine ⟨by omega, by omega, ⟨0, by omega, by omega, by simp⟩, ?_⟩
          right; left
          exact ⟨pgstart, min T K.PAGE_SIZE, v, rfl, hv⟩
      · have hbytes : (v.take found).length = found := by
          rw [List.length_take]; omega
        by_cases hc : copy_to_user ptr (v.take found) = true
        · have hT1 : (T + 2 ^ 64 - found) % 2 ^ 64 = T - found := by omega
          have hTf : found + (T - found) = T := by omega
          obtain ⟨r, hr, h1, h2, h3, h4, h5, h6, h7⟩ :=
            ih (T - found) ((pgstart + found) % 2 ^ 64) ((ptr + found) % 2 ^ 64) 0
              (by omega) (Nat.mod_lt _ (by norm_num)) (Nat.mod_lt _ (by norm_num)) (by omega)
          rw [mod_add_mod_assoc] at h2 h3 h4
          rw [hTf] at h4
          refine ⟨{ r with calls := (pgstart, min T K.PAGE_SIZE) :: r.calls,
                           copies := (ptr, v.take found, true) :: r.copies }, ?_, ?_⟩
          · have hpos : ¬ ((found : Int) ≤ 0) := by omega
            have hs : to_s64 found = (found : Int) := to_s64_of_lt hf63
            simp only [Nat.reducePow] at hT1 hr
            simp [scan_loop, h0, hv, hs, hpos, hc, hT1, hr]
          · simp only [bytes_transferred, hbytes, if_true]
            refine ⟨by clear h2 h3 h4; omega, h2, h3, h4, ?_, ?_, ?_⟩
            · intro c hcm
              rcases List.mem_cons.mp hcm with rfl | hcm
              · exact ⟨0, by clear h2 h3 h4; omega, by clear h2 h3 h4; omega, by simp⟩
              · obtain ⟨w, hw1, hw2, hw3⟩ := h5 c hcm
                rw [mod_add_mod_assoc] at hw2
                refine ⟨found + w, by clear h2 h3 h4 hw2; omega, hw2, ?_⟩
                rw [hw3]
                congr 1
                clear h2 h3 h4 hw2
                omega
            · intro c hcm
              rcases List.mem_cons.mp hcm with rfl | hcm
              · refine ⟨0, by clear h2 h3 h4; omega, ?_, ?_⟩
                · simp only [hbytes]; clear h2 h3 h4; omega
                · intro _; simp only [hbytes]; clear h2 h3 h4; omega
              · obtain ⟨w, hw1, hw2, hw3⟩ := h6 c hcm
                rw [mod_add_mod_assoc] at hw1
                refine ⟨found + w, hw1, by clear h2 h3 h4 hw1; omega, ?_⟩
                intro hok
                have := hw3 hok
                clear h2 h3 h4 hw1
                omega
            · rcases h7 with h | ⟨s, m, v1, hl, hp⟩ | ⟨p, b, hl⟩
              · left; exact h
              · right; left
                refine ⟨s, m, v1, ?_, hp⟩
                cases hcalls : r.calls with
                | nil => rw [hcalls] at hl; simp at hl
                | cons x xs => rw [hcalls] at hl; rw [List.getLast?_cons_cons]; exact hl
              · right; right
                refine ⟨p, b, ?_⟩
                cases hcop : r.copies with
                | nil => rw [hcop] at hl; simp at hl
                | cons x xs => rw [hcop] at hl; rw [List.getLast?_cons_cons]; exact hl
        · refine ⟨⟨-(EFAULT : Int), T, pgstart, ptr, [(pgstart, min T K.PAGE_SIZE)],
            [(ptr, v.take found, false)]⟩, ?_, ?_⟩
          · have hpos : ¬ ((found : Int) ≤ 0) := by omega
            have hs : to_s64 found = (found : Int) := to_s64_of_lt hf63
            simp [scan_loop, h0, hv, hs, hpos, hc]
          · simp only [bytes_transferred, List.mem_singleton, forall_eq, Nat.add_zero,
              Nat.zero_add, hbytes]
            refine ⟨by simp, by simp; omega, by simp; omega, by simp,
              ⟨0, by omega, by omega, by simp⟩, ⟨0, by omega, by omega, by simp⟩, ?_⟩
            right; right
            exact ⟨ptr, v.take found, rfl⟩

/-- Witness of C17 (amended): three pages, a dense provider, transfers that
succeed. -/
theorem scan_loop_invariants_witness :
    ∃ r, scan_loop linux dense_provider (fun _ _ => true) 4 0 3 0 0x7f0000000000 = some r ∧
      bytes_transferred r.copies + r.nr_pages = 3 ∧
      r.pgstart = (0 + bytes_transferred r.copies) % 2 ^ 64 ∧
      r.ptr = (0x7f0000000000 + bytes_transferred r.copies) % 2 ^ 64 ∧
      (r.pgstart + r.nr_pages) % 2 ^ 64 = (0 + 3) % 2 ^ 64 ∧
      (∀ c ∈ r.calls, ∃ w, w < 3 ∧ c.1 = (0 + w) % 2 ^ 64 ∧
        c.2 = min (3 - w) linux.PAGE_SIZE) ∧
      (∀ c ∈ r.copies, ∃ w, c.1 = (0x7f0000000000 + w) % 2 ^ 64 ∧ w + c.2.1.length ≤ 3 ∧
        (c.2.2 = true → w + c.2.1.length ≤ bytes_transferred r.copies)) ∧
      (r.nr_pages = 0 ∨
        (∃ s n v, r.calls.getLast? = some (s, n) ∧
          dense_provider s n (List.replicate linux.PAGE_SIZE 0) = some (v, 0)) ∨
        (∃ p b, r.copies.getLast? = some (p, b, false))) :=
  scan_loop_invariants linux dense_provider (fun _ _ => true) 4 3 0 0x7f0000000000 0
    (by decide) (by decide) (by decide) (by decide)
    (fun _ n vec => ⟨vec, n, rfl, Nat.le_refl n, rfl⟩) (by decide)

/-- C17 (as stated, fails): with 5000 pages to scan from page 7 and a
destination that cannot be written, the loop stops after one provider call
that returned 4096 pages, with all 5000 pages still remaining: it stopped
neither at a call that returned 0 nor with no page remaining. -/
theorem scan_loop_stops_on_failed_copy :
    (scan_loop linux dense_provider (fun _ _ => false) 2 0 5000 7 0x7f0000000000).map
        (fun r => (r.nr_pages, r.calls, r.copies.map fun c => c.2.2)) =
      some (5000, [(7, 4096)], [false]) ∧
    (dense_provider 7 4096 (List.replicate linux.PAGE_SIZE 0)).map (fun x => x.2) =
      some 4096 := by
  decide

/-! ### the records of print_results -/

/-- What the hole loop has consumed when it stops on a page: zero bytes only. -/
theorem hole_loop_found_split {length : Nat} :
    ∀ (rest : List Nat) (p q : Nat) (rest1 : List Nat),
      hole_loop length rest p = .found q rest1 →
      ∃ zs, rest = zs ++ rest1 ∧ q = p + zs.length ∧ (∀ z ∈ zs, z = 0) ∧
        ∃ b tl, rest1 = b :: tl ∧ b ≠ 0 := by
  intro rest
  induction rest with
  | nil => intro p q rest1 h; simp [hole_loop] at h
  | cons b tl ih =>
    intro p q rest1 h
    unfold hole_loop at h
    by_cases hb : b = 0
    · rw [if_pos hb] at h
      by_cases hp : p + 1 = length - 1
      · rw [if_pos hp] at h; cases h
      · rw [if_neg hp] at h
        obtain ⟨zs, h1, h2, h3, h4⟩ := ih (p + 1) q rest1 h
        refine ⟨b :: zs, by rw [h1]; rfl, by rw [h2, List.length_cons]; omega, ?_, h4⟩
        intro z hz
        rcases List.mem_cons.mp hz with rfl | hz
        · exact hb
        · exact h3 z hz
    · rw [if_neg hb] at h
      cases h
      exact ⟨[], rfl, rfl, by simp, b, tl, rfl, hb⟩

/-- What the hole loop has consumed when it returns: zero bytes only, up to
index `length - 2`. -/
theorem hole_loop_returned_split {length : Nat} :
    ∀ (rest : List Nat) (p : Nat), hole_loop length rest p = .returned →
      ∃ zs tl, rest = zs ++ tl ∧ (∀ z ∈ zs, z = 0) ∧ p + zs.length = length - 1 := by
  intro rest
  induction rest with
  | nil => intro p h; simp [hole_loop] at h
  | cons b tl ih =>
    intro p h
    unfold hole_loop at h
    by_cases hb : b = 0
    · rw [if_pos hb] at h
      by_cases hp : p + 1 = length - 1
      · exact ⟨[b], tl, rfl, by simp [hb], by simpa using hp⟩
      · rw [if_neg hp] at h
        obtain ⟨zs, tl1, h1, h2, h3⟩ := ih (p + 1) h
        refine ⟨b :: zs, tl1, by rw [h1]; rfl, ?_, by rw [List.length_cons]; omega⟩
        intro z hz
        rcases List.mem_cons.mp hz with rfl | hz
        · exact hb
        · exact h2 z hz
    · rw [if_neg hb] at h
      cases h

/-- What the run loop has consumed when it stops: bytes equal to `flags`; and
unless the test on `i` cut the run, the byte it stopped on is not `flags`. -/
theorem run_loop_done_split {length i flags : Nat} :
    ∀ (rest : List Nat) (p run q run1 : Nat) (rest2 : List Nat),
      run_loop length i flags rest p run = .done q run1 rest2 →
      ∃ fs, rest = fs ++ rest2 ∧ q = p + fs.length ∧ run1 = run + fs.length ∧
        (∀ f ∈ fs, f = flags) ∧
        (i ≠ length - 1 → ∃ b tl, rest2 = b :: tl ∧ ¬ (b ≠ 0 ∧ b = flags)) := by
  intro rest
  induction rest with
  | nil => intro p run q run1 rest2 h; simp [run_loop] at h
  | cons b tl ih =>
    intro p run q run1 rest2 h
    unfold run_loop at h
    by_cases hb : b ≠ 0 ∧ b = flags
    · rw [if_pos hb] at h
      by_cases hi : i = length - 1
      · rw [if_pos hi] at h
        cases h
        exact ⟨[b], rfl, rfl, rfl, by simp [hb.2], fun hne => absurd hi hne⟩
      · rw [if_neg hi] at h
        obtain ⟨fs, h1, h2, h3, h4, h5⟩ := ih _ _ _ _ _ h
        refine ⟨b :: fs, by rw [h1]; rfl, by rw [h2, List.length_cons]; omega,
          by rw [h3, List.length_cons]; omega, ?_, h5⟩
        intro f hf
        rcases List.mem_cons.mp hf with rfl | hf
        · exact hb.2
        · exact h4 f hf
    · rw [if_neg hb] at h
      cases h
      exact ⟨[], rfl, rfl, rfl, by simp, fun _ => ⟨b, tl, rfl, hb⟩⟩

/-- Reading inside the middle part of a vector cut in three. -/
theorem getElem?_mid {α : Type} (A B C : List α) (j : Nat) (x : α)
    (h : (A ++ (B ++ C))[j]? = some x) (h1 : A.length ≤ j) (h2 : j < A.length + B.length) :
    x ∈ B := by
  rw [List.getElem?_append_right h1, List.getElem?_append_left (by omega)] at h
  exact List.getElem?_mem h

/-- Every index of the middle part of a vector reads an element of that part. -/
theorem getElem?_mid_some {α : Type} (A B C : List α) (j : Nat) (b : α)
    (hB : ∀ x ∈ B, x = b) (h1 : A.length ≤ j) (h2 : j < A.length + B.length) :
    (A ++ (B ++ C))[j]? = some b := by
  rw [List.getElem?_append_right h1, List.getElem?_append_left (by omega)]
  have hlt : j - A.length < B.length := by omega
  rw [List.getElem?_eq_getElem hlt]
  exact congrArg some (hB _ (List.getElem_mem _))

/-- Records of the outer loop entered at `pindex = pre.length` on the vector
`pre ++ rest`: each starts at or after `pindex` and is truthful, and they come
in increasing, non-overlapping order. -/
theorem do_loop_records (length : Nat) :
    ∀ (fuel i : Nat) (pre rest : List Nat),
      (∀ r ∈ (do_loop length fuel i rest pre.length).records,
        pre.length ≤ r.start ∧ 1 ≤ r.run ∧ r.flags ≠ 0 ∧
        r.start + r.run ≤ (pre ++ rest).length ∧
        (∀ j, r.start ≤ j → j < r.start + r.run → (pre ++ rest)[j]? = some r.flags) ∧
        r.status = str_flags r.flags) ∧
      (do_loop length fuel i rest pre.length).records.Pairwise
        (fun a b => a.start + a.run ≤ b.start) := by
  intro fuel
  induction fuel with
  | zero => intro i pre rest; simp [do_loop]
  | succ n ih =>
    intro i pre rest
    unfold do_loop
    cases hh : hole_loop length rest pre.length with
    | returned => simp
    | fault q => simp
    | found start rest1 =>
      obtain ⟨zs, hrest, hstart, hzs, b, tl, hrest1, hb⟩ :=
        hole_loop_found_split rest pre.length start rest1 hh
      subst hrest1
      simp only [List.head?_cons]
      cases hr : run_loop length i b (b :: tl) start 0 with
      | fault q => simp
      | done q run rest2 =>
        obtain ⟨fs, hfs, hq, hrun, hall, _⟩ := run_loop_done_split _ _ _ _ _ _ hr
        have hlt := run_loop_done_lt hb tl start 0 q run rest2 hr
        have hfslen : 1 ≤ fs.length := by
          have := congrArg List.length hfs
          simp only [List.length_cons, List.length_append] at this
          omega
        have hvec : pre ++ rest = (pre ++ zs) ++ (fs ++ rest2) := by
          rw [hrest, hfs, List.append_assoc]
        have hvec2 : pre ++ rest = (pre ++ zs ++ fs) ++ rest2 := by
          rw [hvec]; simp only [List.append_assoc]
        have hpz : (pre ++ zs).length = start := by
          rw [List.length_append, hstart]
        have hq2 : q = (pre ++ zs ++ fs).length := by
          rw [List.length_append, hpz, hq]
        have hr0 : pre.length ≤ start ∧ 1 ≤ run ∧ b ≠ 0 ∧
            start + run ≤ (pre ++ rest).length ∧
            (∀ j, start ≤ j → j < start + run → (pre ++ rest)[j]? = some b) := by
          refine ⟨by omega, by omega, hb, ?_, ?_⟩
          · rw [hvec]
            simp only [List.length_append] at hpz ⊢
            omega
          · intro j hj1 hj2
            rw [hvec]
            exact getElem?_mid_some (pre ++ zs) fs rest2 j b hall (by omega) (by omega)
        simp only
        split
        · have ih1 := ih page_flags.length (pre ++ zs ++ fs) rest2
          rw [← hq2, ← hvec2] at ih1
          obtain ⟨iha, ihb⟩ := ih1
          constructor
          · intro r hrm
            rcases List.mem_cons.mp hrm with rfl | hrm
            · exact ⟨hr0.1, hr0.2.1, hr0.2.2.1, hr0.2.2.2.1, hr0.2.2.2.2, rfl⟩
            · obtain ⟨h1, h2⟩ := iha r hrm
              exact ⟨by omega, h2⟩
          · rw [List.pairwise_cons]
            refine ⟨?_, ihb⟩
            intro r hrm
            have := (iha r hrm).1
            simp only
            omega
        · constructor
          · intro r hrm
            rw [List.mem_singleton] at hrm
            subst hrm
            exact ⟨hr0.1, hr0.2.1, hr0.2.2.1, hr0.2.2.2.1, hr0.2.2.2.2, rfl⟩
          · exact List.pairwise_singleton _ _

/-- What the records of `print_results` do tell, whatever `length` is passed:
in each record the run is at least 1, the flags are not 0, the range lies
inside the memory that was read (the list `vec`, which may be longer than
`length`), every byte of the range equals the flags and the flag string is
the rendering of these flags; the ranges are increasing and do not overlap.
The bound is the size of the memory, not `length`. -/
theorem print_results_records_truthful (vec : List Nat) (length : Nat) :
    (∀ r ∈ (print_results vec length).records,
      1 ≤ r.run ∧ r.flags ≠ 0 ∧ r.start + r.run ≤ vec.length ∧
      (∀ j, r.start ≤ j → j < r.start + r.run → vec[j]? = some r.flags) ∧
      r.status = str_flags r.flags) ∧
    (print_results vec length).records.Pairwise (fun a b => a.start + a.run ≤ b.start) := by
  unfold print_results
  split
  · simp
  · have h := do_loop_records length (vec.length + 1) header.length [] vec
    simp only [List.length_nil, List.nil_append] at h
    exact ⟨fun r hr => (h.1 r hr).2, h.2⟩

/-- C19 (fails on the code): a record can reach past the `length` entries of
the vector. For the vector `[3, 3]` with length 2 the run loop evaluates
`vec[2]`, outside the vector, before any record is printed; when these two
entries are the start of the buffer `[3, 3, 3, 0]` the only record is
`(0, 3)`, a run of 3 pages for a vector of 2. -/
theorem print_results_run_exceeds_length :
    print_results [3, 3] 2 = ⟨[], .fault 2⟩ ∧
    print_results [3, 3, 3, 0] 2 = ⟨[⟨0, 3, 3, "UA______"⟩], .returned⟩ := by
  decide

/-! ### print_results on a vector that ends with two holes -/

/-- On a part of the vector that reaches index `length - 1` and holds at
least two entries, the hole loop never reads outside the vector. -/
theorem hole_loop_no_fault {length : Nat} :
    ∀ (rest : List Nat) (p q : Nat), 2 ≤ rest.length → p + rest.length = length →
      hole_loop length rest p ≠ .fault q := by
  intro rest
  induction rest with
  | nil => intro p q h; simp at h
  | cons b tl ih =>
    intro p q h2 hp
    unfold hole_loop
    simp only [List.length_cons] at h2 hp
    by_cases hb : b = 0
    · rw [if_pos hb]
      by_cases hp1 : p + 1 = length - 1
      · rw [if_pos hp1]; simp
      · rw [if_neg hp1]
        exact ih (p + 1) q (by omega) (by omega)
    · rw [if_neg hb]; simp

/-- On a part of the vector that holds a zero byte, the run loop never reads
outside the vector. -/
theorem run_loop_no_fault {length i flags : Nat} :
    ∀ (rest : List Nat) (p run q : Nat), 0 ∈ rest →
      run_loop length i flags rest p run ≠ .fault q := by
  intro rest
  induction rest with
  | nil => intro p run q h; simp at h
  | cons b tl ih =>
    intro p run q h0
    unfold run_loop
    by_cases hb : b ≠ 0 ∧ b = flags
    · rw [if_pos hb]
      by_cases hi : i = length - 1
      · rw [if_pos hi]; simp
      · rw [if_neg hi]
        apply ih
        rcases List.mem_cons.mp h0 with h | h
        · exact absurd h.symm hb.1
        · exact h
    · rw [if_neg hb]; simp

/-- A tail that starts with a non-zero byte, of a list ending with two zeros,
ends with these two zeros. -/
theorem ends_zeros_of_tail (A mid tl : List Nat) (b : Nat) (hb : b ≠ 0)
    (h : A ++ b :: tl = mid ++ [0, 0]) : ∃ mid1, b :: tl = mid1 ++ [0, 0] := by
  rcases List.append_eq_append_iff.mp h with ⟨a, _, h2⟩ | ⟨c, _, h2⟩
  · exact ⟨a, h2⟩
  · exfalso
    match c, h2 with
    | [], h2 => simp at h2; exact hb h2.1.symm
    | [x], h2 => simp at h2; exact hb h2.2.1.symm
    | x :: y :: c, h2 => simp at h2

/-- What follows non-zero bytes, in a list ending with two zeros, ends with
these two zeros. -/
theorem ends_zeros_after_run (fs rest2 mid : List Nat) (hfs : ∀ f ∈ fs, f ≠ 0)
    (h : fs ++ rest2 = mid ++ [0, 0]) : ∃ mid2, rest2 = mid2 ++ [0, 0] := by
  rcases List.append_eq_append_iff.mp h with ⟨a, _, h2⟩ | ⟨c, h1, h2⟩
  · exact ⟨a, h2⟩
  · match c, h1, h2 with
    | [], _, h2 => exact ⟨[], by simpa using h2.symm⟩
    | x :: c, h1, h2 =>
      exfalso
      have hx : x = 0 := by
        simp at h2
        exact h2.1.symm
      exact hfs x (by rw [h1]; simp) hx

/-- The outer loop on the vector `pre ++ rest` (of `length` entries, ending
with two zeros), entered at `pindex = pre.length` with the byte before
`pindex` different from the byte at `pindex`, when the test on `i` never
fires: it returns, its records cover every non-zero byte from `pindex` on, and
every record is a maximal run. -/
theorem do_loop_ends_with_holes (length : Nat) (h8 : page_flags.length ≠ length - 1) :
    ∀ (fuel i : Nat) (pre rest : List Nat), i ≠ length - 1 → rest.length < fuel →
      pre.length + rest.length = length → (∃ mid, rest = mid ++ [0, 0]) →
      (pre = [] ∨ ∃ x, pre.getLast? = some x ∧ rest.head? ≠ some x) →
      (do_loop length fuel i rest pre.length).exit = .returned ∧
      (∀ j x, pre.length ≤ j → (pre ++ rest)[j]? = some x → x ≠ 0 →
        ∃ r ∈ (do_loop length fuel i rest pre.length).records,
          r.start ≤ j ∧ j < r.start + r.run) ∧
      (∀ r ∈ (do_loop length fuel i rest pre.length).records,
        (r.start = 0 ∨ (pre ++ rest)[r.start - 1]? ≠ some r.flags) ∧
        (pre ++ rest)[r.start + r.run]? ≠ some r.flags) := by
  intro fuel
  induction fuel with
  | zero => intro i pre rest _ h; exact absurd h (Nat.not_lt_zero _)
  | succ n ih =>
    intro i pre rest hi hfuel hlen hmid hleft
    obtain ⟨mid, hmid⟩ := hmid
    have hrest2 : 2 ≤ rest.length := by rw [hmid]; simp
    unfold do_loop
    cases hh : hole_loop length rest pre.length with
    | fault q => exact absurd hh (hole_loop_no_fault rest pre.length q hrest2 hlen)
    | returned =>
      obtain ⟨zs, tl0, hsplit, hzs, hp⟩ := hole_loop_returned_split rest pre.length hh
      refine ⟨rfl, ?_, by simp⟩
      intro j x hj hx hx0
      exfalso
      have htl0 : tl0.length = 1 := by
        have := congrArg List.length hsplit
        simp only [List.length_append] at this
        omega
      have htl0z : tl0 = [0] := by
        have h1 : zs ++ tl0 = (mid ++ [0]) ++ [0] := by
          rw [← hsplit, hmid]; simp
        exact (List.append_inj' h1 (by simp [htl0])).2
      rw [hsplit, htl0z] at hx
      by_cases hjz : j < pre.length + zs.length
      · exact hx0 (hzs x (getElem?_mid pre zs [0] j x hx hj hjz))
      · rw [← List.append_assoc, List.getElem?_append_right (by simp; omega)] at hx
        have := List.getElem?_mem hx
        simp at this
        exact hx0 this
    | found start rest1 =>
      obtain ⟨zs, hrest, hstart, hzs, b, tl, hrest1, hb⟩ :=
        hole_loop_found_split rest pre.length start rest1 hh
      subst hrest1
      obtain ⟨mid1, hmid1⟩ := ends_zeros_of_tail zs mid tl b hb (by rw [← hrest, hmid])
      simp only [List.head?_cons]
      cases hr : run_loop length i b (b :: tl) start 0 with
      | fault q =>
        exact absurd hr (run_loop_no_fault (b :: tl) start 0 q (by rw [hmid1]; simp))
      | done q run rest2 =>
        obtain ⟨fs, hfs, hq, hrun, hall, hstop⟩ := run_loop_done_split _ _ _ _ _ _ hr
        obtain ⟨b2, tl2, hb2, hne⟩ := hstop hi
        have hlt := run_loop_done_lt hb tl start 0 q run rest2 hr
        have hfslen : 1 ≤ fs.length := by
          have := congrArg List.length hfs
          simp only [List.length_cons, List.length_append] at this
          omega
        obtain ⟨mid2, hmid2⟩ := ends_zeros_after_run fs rest2 mid1
          (fun f hf => by rw [hall f hf]; exact hb) (by rw [← hfs, hmid1])
        have hvec : pre ++ rest = pre ++ (zs ++ (fs ++ rest2)) := by rw [hrest, hfs]
        have hvec1 : pre ++ rest = (pre ++ zs) ++ (fs ++ rest2) := by
          rw [hvec]; simp only [List.append_assoc]
        have hvec2 : pre ++ rest = (pre ++ zs ++ fs) ++ rest2 := by
          rw [hvec]; simp only [List.append_assoc]
        have hpz : (pre ++ zs).length = start := by rw [List.length_append, hstart]
        have hq2 : q = (pre ++ zs ++ fs).length := by rw [List.length_append, hpz, hq]
        have hrest2len : 2 ≤ rest2.length := by rw [hmid2]; simp
        have hrestlen : rest.length = zs.length + fs.length + rest2.length := by
          rw [hrest, hfs]; simp only [List.length_append]; omega
        have hqlt : q < length := by omega
        have hb2b : (some b2 : Option Nat) ≠ some b := by
          intro h
          cases h
          exact hne ⟨hb, rfl⟩
        have hlast : (pre ++ zs ++ fs).getLast? = some b := by
          obtain ⟨fs1, f, hfs1⟩ : ∃ fs1 f, fs = fs1 ++ [f] := by
            rcases List.eq_nil_or_concat fs with h | ⟨fs1, f, h⟩
            · rw [h] at hfslen; simp at hfslen
            · exact ⟨fs1, f, by simpa using h⟩
          have hf : f = b := hall f (by rw [hfs1]; simp)
          rw [hfs1, ← List.append_assoc, List.getLast?_concat, hf]
        have ih1 := ih page_flags.length (pre ++ zs ++ fs) rest2 h8 (by omega)
          (by rw [← hq2]; omega) ⟨mid2, hmid2⟩
          (Or.inr ⟨b, hlast, by rw [hb2, List.head?_cons]; exact hb2b⟩)
        rw [← hq2, ← hvec2] at ih1
        obtain ⟨ihe, ihc, ihm⟩ := ih1
        simp only [hqlt, if_true]
        refine ⟨ihe, ?_, ?_⟩
        · intro j x hj hx hx0
          by_cases hj1 : j < start
          · exfalso
            rw [hvec] at hx
            exact hx0 (hzs x (getElem?_mid pre zs _ j x hx hj (by omega)))
          · by_cases hj2 : j < q
            · exact ⟨_, List.mem_cons_self _ _, by simp only; omega, by simp only; omega⟩
            · obtain ⟨r, hrm, h1, h2⟩ := ihc j x (by omega) hx hx0
              exact ⟨r, List.mem_cons_of_mem _ hrm, h1, h2⟩
        · intro r hrm
          rcases List.mem_cons.mp hrm with rfl | hrm
          · simp only
            constructor
            · rcases List.eq_nil_or_concat zs with hz | ⟨zs1, z, hz⟩
              · rw [hz] at hstart hrest
                simp only [List.length_nil, Nat.add_zero, List.nil_append] at hstart hrest
                rcases hleft with hpre | ⟨x, hx1, hx2⟩
                · left; rw [hstart, hpre]; rfl
                · right
                  have hprene : pre ≠ [] := by
                    intro h; rw [h] at hx1; simp at hx1
                  have hpl : 0 < pre.length := List.length_pos.mpr hprene
                  rw [hstart, List.getElem?_append_left (by omega),
                    ← List.getLast?_eq_getElem?, hx1]
                  rw [hrest, List.head?_cons] at hx2
                  exact fun h => hx2 h.symm
              · right
                intro h
                have hz0 : z = 0 := hzs z (by rw [hz]; simp)
                rw [hvec] at h
                have hmem := getElem?_mid pre zs _ (start - 1) b h
                  (by rw [hstart, hz]; simp) (by rw [hstart, hz]; simp)
                exact hb (hzs b hmem)
            · have hqq : start + run = (pre ++ zs ++ fs).length := by rw [← hq2, hq, hrun]; omega
              rw [hqq, hvec2, List.getElem?_append_right (Nat.le_refl _), Nat.sub_self, hb2]
              simpa using hb2b
          · exact ihm r hrm

/-- A vector whose last two entries read 0 ends with `[0, 0]`. -/
theorem ends_zeros_of_getElem? (vec : List Nat) (h2 : 2 ≤ vec.length)
    (hz1 : vec[vec.length - 2]? = some 0) (hz2 : vec[vec.length - 1]? = some 0) :
    ∃ mid, vec = mid ++ [0, 0] := by
  refine ⟨vec.take (vec.length - 2), ?_⟩
  have hdrop : vec.drop (vec.length - 2) = [0, 0] := by
    apply List.ext_getElem?
    intro n
    rw [List.getElem?_drop]
    match n with
    | 0 => simpa using hz1
    | 1 =>
      have : vec.length - 2 + 1 = vec.length - 1 := by omega
      rw [this]; simpa using hz2
    | n + 2 =>
      rw [List.getElem?_eq_none (by omega)]
      simp
  rw [← hdrop, List.take_append_drop]

/-! ### independence from the memory after the vector -/

/-- The hole loop behaves the same on a longer buffer when it does not leave
the shorter one. -/
theorem hole_loop_append {length : Nat} (extra : List Nat) :
    ∀ (rest : List Nat) (p : Nat),
      (∀ q rest1, hole_loop length rest p = .found q rest1 →
        hole_loop length (rest ++ extra) p = .found q (rest1 ++ extra)) ∧
      (hole_loop length rest p = .returned →
        hole_loop length (rest ++ extra) p = .returned) := by
  intro rest
  induction rest with
  | nil => intro p; simp [hole_loop]
  | cons b tl ih =>
    intro p
    simp only [List.cons_append, hole_loop]
    by_cases hb : b = 0
    · simp only [if_pos hb]
      by_cases hp : p + 1 = length - 1
      · simp [hp]
      · simp only [if_neg hp]
        exact ih (p + 1)
    · simp only [if_neg hb]
      constructor
      · intro q rest1 h
        cases h
        rfl
      · intro h
        cases h

/-- The run loop behaves the same on a longer buffer when it does not leave
the shorter one. -/
theorem run_loop_append {length i flags : Nat} (extra : List Nat) :
    ∀ (rest : List Nat) (p run q run1 : Nat) (rest2 : List Nat),
      run_loop length i flags rest p run = .done q run1 rest2 →
      run_loop length i flags (rest ++ extra) p run = .done q run1 (rest2 ++ extra) := by
  intro rest
  induction rest with
  | nil => intro p run q run1 rest2 h; simp [run_loop] at h
  | cons b tl ih =>
    intro p run q run1 rest2 h
    simp only [List.cons_append, run_loop] at h ⊢
    by_cases hb : b ≠ 0 ∧ b = flags
    · rw [if_pos hb] at h ⊢
      by_cases hi : i = length - 1
      · rw [if_pos hi] at h ⊢
        cases h
        rfl
      · rw [if_neg hi] at h ⊢
        exact ih _ _ _ _ _ h
    · rw [if_neg hb] at h ⊢
      cases h
      rfl

/-- An execution of the outer loop that returns is not changed by entries
added after the vector, nor by more fuel. -/
theorem do_loop_append (length : Nat) (extra : List Nat) :
    ∀ (fuel fuel1 i : Nat) (rest : List Nat) (p : Nat),
      (do_loop length fuel i rest p).exit = .returned → fuel ≤ fuel1 →
      do_loop length fuel1 i (rest ++ extra) p = do_loop length fuel i rest p := by
  intro fuel
  induction fuel with
  | zero => intro fuel1 i rest p h; simp [do_loop] at h
  | succ n ih =>
    intro fuel1 i rest p h hle
    obtain ⟨m, rfl⟩ : ∃ m, fuel1 = m + 1 := ⟨fuel1 - 1, by omega⟩
    unfold do_loop at h ⊢
    cases hh : hole_loop length rest p with
    | returned => rw [(hole_loop_append extra rest p).2 hh]
    | fault q => rw [hh] at h; simp at h
    | found start rest1 =>
      rw [(hole_loop_append extra rest p).1 start rest1 hh]
      rw [hh] at h
      cases rest1 with
      | nil => simp at h
      | cons b tl =>
        simp only [List.cons_append, List.head?_cons] at h ⊢
        cases hr : run_loop length i b (b :: tl) start 0 with
        | fault q => rw [hr] at h; simp at h
        | done q run rest2 =>
          have hr1 := run_loop_append extra _ _ _ _ _ _ hr
          simp only [List.cons_append] at hr1
          rw [hr1]
          rw [hr] at h
          simp only at h ⊢
          by_cases hq : q < length
          · simp only [hq, if_true] at h ⊢
            rw [ih m page_flags.length rest2 q h (by omega)]
          · simp only [hq, if_false]

/-- When `print_results` returns on a vector, it gives the same report on any
buffer that starts with the vector. -/
theorem print_results_append (vec extra : List Nat) (length : Nat)
    (h : (print_results vec length).exit = .returned) :
    print_results (vec ++ extra) length = print_results vec length := by
  unfold print_results at h ⊢
  by_cases h0 : length = 0
  · simp [h0]
  · simp only [if_neg h0] at h ⊢
    exact do_loop_append length extra (vec.length + 1) ((vec ++ extra).length + 1)
      header.length vec 0 h (by simp)

/-- C20: for a vector of `L` entries, `L` other than 5 and 9, whose last two
entries are zero, `print_results (vec, L)` returns without reading outside
the vector (it gives the same report whatever follows the vector in memory),
and its records are exactly the maximal runs of equal non-zero bytes, in
order: each record is a run of its flags that cannot be extended to the left
or to the right, every non-zero entry lies in a record, and the records come
in increasing order without overlap. -/
theorem print_results_ends_with_holes (vec : List Nat) (L : Nat) (hlen : vec.length = L)
    (h5 : L ≠ 5) (h9 : L ≠ 9) (h2 : 2 ≤ L)
    (hz1 : vec[L - 2]? = some 0) (hz2 : vec[L - 1]? = some 0) :
    (print_results vec L).exit = .returned ∧
    (∀ extra, print_results (vec ++ extra) L = print_results vec L) ∧
    (∀ r ∈ (print_results vec L).records,
      1 ≤ r.run ∧ r.flags ≠ 0 ∧ r.start + r.run ≤ L ∧
      (∀ j, r.start ≤ j → j < r.start + r.run → vec[j]? = some r.flags) ∧
      (r.start = 0 ∨ vec[r.start - 1]? ≠ some r.flags) ∧
      vec[r.start + r.run]? ≠ some r.flags ∧
      r.status = str_flags r.flags) ∧
    (∀ j x, vec[j]? = some x → x ≠ 0 →
      ∃ r ∈ (print_results vec L).records, r.start ≤ j ∧ j < r.start + r.run) ∧
    (print_results vec L).records.Pairwise (fun a b => a.start + a.run ≤ b.start) := by
  subst hlen
  obtain ⟨ht, hp⟩ := print_results_records_truthful vec vec.length
  have hmid := ends_zeros_of_getElem? vec h2 hz1 hz2
  have hh : header.length = 4 := rfl
  have hf : page_flags.length = 8 := rfl
  have hcli := do_loop_ends_with_holes vec.length (by rw [hf]; omega) (vec.length + 1)
    header.length [] vec (by rw [hh]; omega) (Nat.lt_succ_self _) (by simp) hmid (Or.inl rfl)
  have hprint : print_results vec vec.length =
      do_loop vec.length (vec.length + 1) header.length vec 0 := by
    unfold print_results
    rw [if_neg (by omega)]
  simp only [List.length_nil, List.nil_append] at hcli
  rw [← hprint] at hcli
  obtain ⟨he, hc, hm⟩ := hcli
  refine ⟨he, fun extra => print_results_append vec extra _ he, ?_, ?_, hp⟩
  · intro r hr
    obtain ⟨a1, a2, a3, a4, a5⟩ := ht r hr
    obtain ⟨m1, m2⟩ := hm r hr
    exact ⟨a1, a2, a3, a4, m1, m2, a5⟩
  · intro j x hx hx0
    exact hc j x (Nat.zero_le _) hx hx0

/-- Witness of C20: the scenario vector followed by two more holes (10
entries); the two records are `(2, 3)` and `(6, 1)`. -/
theorem print_results_ends_with_holes_witness :
    (print_results [0, 0, 3, 3, 3, 0, 1, 0, 0, 0] 10).exit = .returned ∧
    (∀ extra, print_results ([0, 0, 3, 3, 3, 0, 1, 0, 0, 0] ++ extra) 10 =
      print_results [0, 0, 3, 3, 3, 0, 1, 0, 0, 0] 10) ∧
    (∀ r ∈ (print_results [0, 0, 3, 3, 3, 0, 1, 0, 0, 0] 10).records,
      1 ≤ r.run ∧ r.flags ≠ 0 ∧ r.start + r.run ≤ 10 ∧
      (∀ j, r.start ≤ j → j < r.start + r.run →
        [0, 0, 3, 3, 3, 0, 1, 0, 0, 0][j]? = some r.flags) ∧
      (r.start = 0 ∨ [0, 0, 3, 3, 3, 0, 1, 0, 0, 0][r.start - 1]? ≠ some r.flags) ∧
      [0, 0, 3, 3, 3, 0, 1, 0, 0, 0][r.start + r.run]? ≠ some r.flags ∧
      r.status = str_flags r.flags) ∧
    (∀ j x, [0, 0, 3, 3, 3, 0, 1, 0, 0, 0][j]? = some x → x ≠ 0 →
      ∃ r ∈ (print_results [0, 0, 3, 3, 3, 0, 1, 0, 0, 0] 10).records,
        r.start ≤ j ∧ j < r.start + r.run) ∧
    (print_results [0, 0, 3, 3, 3, 0, 1, 0, 0, 0] 10).records.Pairwise
      (fun a b => a.start + a.run ≤ b.start) :=
  print_results_ends_with_holes [0, 0, 3, 3, 3, 0, 1, 0, 0, 0] 10 rfl (by decide) (by decide)
    (by decide) (by decide) (by decide)

end Fincore

